import Mathlib

/-!
Verification of the rocPRIM HIP device merge-sort pipeline
(`rocprim/include/rocprim/device/device_sort_hip.hpp`).

The host-side pipeline `detail::sort_impl` and the public `sort` entry
points are embedded as executable Lean functions.  Machine integers are
modelled as `Nat` with explicit reductions: `size_t` arithmetic is taken
modulo `2 ^ 64` exactly where the C++ source computes in `size_t`
(`size * sizeof(key)`, `size + block_size - 1`, the scratch-byte sum), and
the loop variable `block` of the merge loop, an `unsigned int` in the
source, is reduced modulo `2 ^ 32` at `block *= 2`, as is the
`size_t → unsigned int` narrowing `grid_size = number_of_blocks`.

The HIP runtime is out of scope for the repository; it is modelled as an
oracle (`HipRuntime`) giving the status reported by `hipPeekAtLastError`
and `hipStreamSynchronize` after each kernel launch, counted in program
order.  The device kernels `block_sort_kernel_impl`,
`block_merge_kernel_impl` and `block_copy_kernel_impl` live in
`detail/device_sort.hpp`, which is not part of this repository snapshot;
they are modelled from the specification (sections 4.2-4.4) as pure
functions on the element sequences.  The merge loop is written with an
explicit fuel argument so that every definition is executable by the
kernel; fuel exhaustion (`none`) models non-termination of the source
loop, and the development proves that the supplied fuel is irrelevant in
every regime where the source loop terminates.
-/

namespace RocprimSort

/-- Status code of the HIP runtime: `hipSuccess` or a runtime-defined
failure code, propagated untranslated by the pipeline. -/
inductive hipError where
  | hipSuccess : hipError
  | hipFailure : Nat → hipError
deriving DecidableEq

/-- Oracle model of the HIP runtime's status reporting: `peek k` is the
status `hipPeekAtLastError` reports after the `k`-th kernel launch of the
call (counted from 0 in program order), and `sync k` the status of the
`hipStreamSynchronize` that the debug shim performs after that launch. -/
structure HipRuntime where
  peek : Nat → hipError
  sync : Nat → hipError

/-- A runtime in which no stage ever reports a failure. -/
def rtAllOk : HipRuntime :=
  { peek := fun _ => hipError.hipSuccess, sync := fun _ => hipError.hipSuccess }

/-- The runtime reports no failure at any launch index. -/
def rtOk (rt : HipRuntime) : Prop :=
  ∀ k, rt.peek k = hipError.hipSuccess ∧ rt.sync k = hipError.hipSuccess

/-- A runtime that reports failure code 7 for the launch with index 1 and
success everywhere else; used to exercise the fail-fast path on a concrete
run. -/
def rtFail7 : HipRuntime :=
  { peek := fun k => if k = 1 then hipError.hipFailure 7 else hipError.hipSuccess,
    sync := fun _ => hipError.hipSuccess }

/-- The strict less-than comparison on natural-number keys. -/
def cmpNat : Nat → Nat → Bool := fun a b => decide (a < b)

/-- Status observed right after a kernel launch, following the macro
`ROCPRIM_DETAIL_HIP_SYNC_AND_RETURN_ON_ERROR`: first `hipPeekAtLastError`
is consulted; on success, in debug mode the stream is additionally
synchronized and that status is returned, otherwise success. -/
def checkLaunch (rt : HipRuntime) (debug_synchronous : Bool) (k : Nat) : hipError :=
  match rt.peek k with
  | hipError.hipFailure c => hipError.hipFailure c
  | hipError.hipSuccess => if debug_synchronous then rt.sync k else hipError.hipSuccess

/-- All of the first `n` per-launch status checks report success. -/
def checks_ok (rt : HipRuntime) (debug_synchronous : Bool) (n : Nat) : Bool :=
  (List.range n).all (fun k => checkLaunch rt debug_synchronous k == hipError.hipSuccess)

/-- Modelled from the spec: `rocprim::empty_type` (from `types.hpp`, not in
this repository snapshot), the unit value type used to elide values in the
keys-only sort. -/
inductive empty_type where
  | mk : empty_type
deriving DecidableEq

/-- One kernel launch of the pipeline, recording the stage and its scalar
launch arguments: grid size, block size, element count and (for merge
passes) the current run width together with the ping-pong direction. -/
inductive KernelLaunch where
  | sortLaunch (grid block size : Nat)
  | mergeLaunch (grid block size w : Nat) (toBuffer : Bool)
  | copyLaunch (grid block size : Nat)
deriving DecidableEq

/-- Whether a launch is a merge pass. -/
def KernelLaunch.isMerge : KernelLaunch → Bool
  | KernelLaunch.mergeLaunch _ _ _ _ _ => true
  | _ => false

/-- Whether a launch is the block-sort stage. -/
def KernelLaunch.isSort : KernelLaunch → Bool
  | KernelLaunch.sortLaunch _ _ _ => true
  | _ => false

/-- Whether a launch is the final copy-back stage. -/
def KernelLaunch.isCopy : KernelLaunch → Bool
  | KernelLaunch.copyLaunch _ _ _ => true
  | _ => false

/-- The grid size a launch was issued with. -/
def KernelLaunch.grid : KernelLaunch → Nat
  | KernelLaunch.sortLaunch g _ _ => g
  | KernelLaunch.mergeLaunch g _ _ _ _ => g
  | KernelLaunch.copyLaunch g _ _ => g

/-- Modelled from the spec: `rocprim::detail::align_size` from
`detail/various.hpp` (not in this repository snapshot): the byte count
`n`, padded up to the fixed 256-byte alignment granularity, computed in
`size_t` arithmetic. -/
def align_size (n : Nat) : Nat := (((n + 255) % 2 ^ 64) / 256) * 256

/-- The grid size of every launch of `sort_impl`:
`(size + block_size - 1) / block_size` computed in `size_t`, then narrowed
to `unsigned int`. -/
def grid_val (block_size size : Nat) : Nat :=
  (((size + block_size - 1) % 2 ^ 64) / block_size) % 2 ^ 32

/-! ### Chunking a sequence into runs -/

/-- Fuel-indexed worker for `toChunks`; the fuel only bounds the recursion
depth and is irrelevant once it is at least the length of the list. -/
def toChunksGo : Nat → Nat → List α → List (List α)
  | _, _, [] => []
  | 0, _, l => [l]
  | fuel + 1, n, l =>
    if n = 0 then [l]
    else l.take n :: toChunksGo fuel n (l.drop n)

/-- Split a list into consecutive chunks of length `n` (the last chunk may
be shorter). -/
def toChunks (n : Nat) (l : List α) : List (List α) :=
  toChunksGo l.length n l

/-! ### The sorted merge of two runs -/

/-- Fuel-indexed two-way sorted merge with the source's tie-break: take
the head of the left run unless the head of the right run is strictly
smaller under the predicate.  With exhausted fuel the remaining runs are
concatenated; the fuel is irrelevant once it is at least the sum of the
lengths. -/
def mergeF (cmp : K → K → Bool) : Nat → List (K × V) → List (K × V) → List (K × V)
  | 0, l₁, l₂ => l₁ ++ l₂
  | _ + 1, [], l₂ => l₂
  | _ + 1, a :: l₁, [] => a :: l₁
  | fuel + 1, a :: l₁, b :: l₂ =>
    if cmp b.1 a.1 then b :: mergeF cmp fuel (a :: l₁) l₂
    else a :: mergeF cmp fuel l₁ (b :: l₂)

/-- Sorted merge of two runs of key/value pairs. -/
def merge2 (cmp : K → K → Bool) (l₁ l₂ : List (K × V)) : List (K × V) :=
  mergeF cmp (l₁.length + l₂.length) l₁ l₂

/-- The non-strict order on pairs induced by the strict comparison on
keys: `a` may precede `b` when `b`'s key is not strictly less than `a`'s. -/
def keyLe (cmp : K → K → Bool) (a b : K × V) : Prop := cmp b.1 a.1 = false

instance keyLe.decidable (cmp : K → K → Bool) : DecidableRel (keyLe (V := V) cmp) :=
  fun a b => instDecidableEqBool (cmp b.1 a.1) false

/-- The comparison predicate is a strict weak ordering: it is asymmetric,
and its negation (the induced "not greater" relation) is transitive. -/
def SWO (cmp : K → K → Bool) : Prop :=
  (∀ a b, cmp a b = true → cmp b a = false) ∧
  (∀ a b c, cmp b a = false → cmp c b = false → cmp c a = false)

/-- Adjacent-pair ordering check: no element's key is strictly less than
the key of its immediate predecessor. -/
def adjacent_ordered (cmp : K → K → Bool) : List (K × V) → Bool
  | [] => true
  | [_] => true
  | a :: b :: l => !(cmp b.1 a.1) && adjacent_ordered cmp (b :: l)

/-! ### The device kernels (modelled from the spec) -/

/-- Modelled from the spec: `block_sort_kernel_impl` from
`detail/device_sort.hpp` (not in this repository snapshot), section 4.2:
the `size` input elements are partitioned into consecutive chunks of
`BlockSize` elements (the last chunk may be shorter), each chunk is sorted
with the caller's predicate by one thread group using a stable comparison
sort, and the sorted chunks are written to the output at the chunk's own
index range. -/
def block_sort_kernel (block_size : Nat) (cmp : K → K → Bool)
    (keys_input : List (K × V)) : List (K × V) :=
  ((toChunks block_size keys_input).map (List.insertionSort (keyLe cmp))).flatten

/-- Modelled from the spec: `block_merge_kernel_impl` from
`detail/device_sort.hpp` (not in this repository snapshot), section 4.3:
one merge pass for run width `w` merges each disjoint pair of adjacent
sorted runs of width `w` (the second run of a pair may be shorter or
absent at the tail) into one sorted run of width `2 * w`, with the
tie-break preferring the element of the left run. -/
def block_merge_kernel (cmp : K → K → Bool) (w : Nat)
    (keys_input : List (K × V)) : List (K × V) :=
  ((toChunks (2 * w) keys_input).map (fun c => merge2 cmp (c.take w) (c.drop w))).flatten

/-- Modelled from the spec: `block_copy_kernel_impl` from
`detail/device_sort.hpp` (not in this repository snapshot), section 4.4:
the `size` elements are copied unchanged from the scratch buffer to the
output buffer. -/
def block_copy_kernel (keys_input : List (K × V)) : List (K × V) := keys_input

/-! ### The merge loop of `detail::sort_impl` -/

/-- Host-side state of `sort_impl` between kernel launches: the ping-pong
selector `temporary_store`, the contents of the caller's output buffer and
of the keys/values scratch buffer, the number of launches issued so far,
and the trace of those launches. -/
structure LoopState (K V : Type) where
  temporary_store : Bool
  keys_output : List (K × V)
  keys_buffer : List (K × V)
  launches : Nat
  trace : List KernelLaunch

/-- The merge loop
`for(unsigned int block = block_size; block < size; block *= 2)` of
`sort_impl`.  Each iteration flips `temporary_store`, launches
`block_merge_kernel` from the authoritative buffer into the other buffer,
and aborts with the reported status if the post-launch check fails.
`block *= 2` is computed modulo `2 ^ 32` (`block` is `unsigned int`).
The explicit fuel only bounds the recursion depth: `none` is returned
exactly when the guard `block < size` still holds after `fuel`
iterations, which models the source loop still running.

One iteration of the merge loop body: flip `temporary_store` and launch
`block_merge_kernel` with run width `block`, reading the authoritative
buffer and writing the other one; the launch is appended to the trace. -/
def merge_step (cmp : K → K → Bool) (block_size size grid_size block : Nat)
    (st : LoopState K V) : LoopState K V :=
  if !st.temporary_store then
    { temporary_store := !st.temporary_store,
      keys_output := st.keys_output,
      keys_buffer := block_merge_kernel cmp block st.keys_output,
      launches := st.launches + 1,
      trace := st.trace ++ [KernelLaunch.mergeLaunch grid_size block_size size block true] }
  else
    { temporary_store := !st.temporary_store,
      keys_output := block_merge_kernel cmp block st.keys_buffer,
      keys_buffer := st.keys_buffer,
      launches := st.launches + 1,
      trace := st.trace ++ [KernelLaunch.mergeLaunch grid_size block_size size block false] }

/-- The merge loop
`for(unsigned int block = block_size; block < size; block *= 2)` of
`sort_impl`: while the guard holds, perform a `merge_step` and abort with
the reported status if the post-launch check fails. -/
def merge_loop (cmp : K → K → Bool) (rt : HipRuntime) (debug_synchronous : Bool)
    (block_size size grid_size : Nat) :
    Nat → Nat → LoopState K V → Option (hipError × LoopState K V)
  | 0, block, st =>
    if block < size then none else some (hipError.hipSuccess, st)
  | fuel + 1, block, st =>
    if block < size then
      match checkLaunch rt debug_synchronous st.launches with
      | hipError.hipFailure c =>
        some (hipError.hipFailure c, merge_step cmp block_size size grid_size block st)
      | hipError.hipSuccess =>
        merge_loop cmp rt debug_synchronous block_size size grid_size fuel
          ((block * 2) % 2 ^ 32) (merge_step cmp block_size size grid_size block st)
    else some (hipError.hipSuccess, st)

/-- The merge loop with every status check stripped: the pure state
transformer it computes when no check ever fails. -/
def merge_loop_pure (cmp : K → K → Bool) (block_size size grid_size : Nat) :
    Nat → Nat → LoopState K V → LoopState K V
  | 0, _, st => st
  | fuel + 1, block, st =>
    if block < size then
      merge_loop_pure cmp block_size size grid_size fuel ((block * 2) % 2 ^ 32)
        (merge_step cmp block_size size grid_size block st)
    else st

/-- The sequence of merge-pass launches the loop issues, as a function of
the starting run width and ping-pong selector. -/
def merge_trace (block_size size grid_size : Nat) :
    Nat → Nat → Bool → List KernelLaunch
  | 0, _, _ => []
  | fuel + 1, block, ts =>
    if block < size then
      KernelLaunch.mergeLaunch grid_size block_size size block (!ts)
        :: merge_trace block_size size grid_size fuel ((block * 2) % 2 ^ 32) (!ts)
    else []

/-- The number of merge passes the loop performs from run width `block`. -/
def merge_passes (size : Nat) : Nat → Nat → Nat
  | 0, _ => 0
  | fuel + 1, block =>
    if block < size then merge_passes size fuel ((block * 2) % 2 ^ 32) + 1 else 0

/-- The contents of the authoritative buffer after the merge loop: the
iterated application of the merge passes to the block-sorted sequence. -/
def merge_iter (cmp : K → K → Bool) (size : Nat) :
    Nat → Nat → List (K × V) → List (K × V)
  | 0, _, l => l
  | fuel + 1, block, l =>
    if block < size then
      merge_iter cmp size fuel ((block * 2) % 2 ^ 32) (block_merge_kernel cmp block l)
    else l

/-- The authoritative sequence of a loop state: the scratch buffer when
the selector points there, the caller's output buffer otherwise. -/
def auth (st : LoopState K V) : List (K × V) :=
  if st.temporary_store then st.keys_buffer else st.keys_output

/-- Every chunk of width `w` of `l` is sorted: the invariant of the merge
loop, with `w` the current run width. -/
def RunsSorted (cmp : K → K → Bool) (w : Nat) (l : List (K × V)) : Prop :=
  ∀ c ∈ toChunks w l, List.Sorted (keyLe cmp) c

/-- A concrete empty loop state over natural-number keys and values, used
to exercise the merge loop on explicit inputs. -/
def stNat0 : LoopState Nat Nat :=
  { temporary_store := false, keys_output := [], keys_buffer := [],
    launches := 0, trace := [] }

/-! ### `detail::sort_impl` and the public entry points -/

/-- Observable outcome of one `sort_impl` call: the returned status, the
value written to `storage_size` (`none` when it is left untouched), the
final contents of the caller's output buffer and of the keys scratch
buffer, and the trace of kernel launches. -/
structure SortResult (K V : Type) where
  status : hipError
  storage_size : Option Nat
  keys_output : List (K × V)
  keys_buffer : List (K × V)
  trace : List KernelLaunch

/-- `detail::sort_impl`.  `with_values` models the compile-time test
`!std::is_same<value_type, empty_type>::value`; `keySize` and `valueSize`
are `sizeof(key_type)` and `sizeof(value_type)`; `temporary_storage`
models whether the scratch pointer is non-null; `keys_output₀` is the
content of the caller's output buffer before the call.  Keys and paired
values are carried together as pairs.  The result is `none` exactly when
the merge loop exhausts its fuel with the guard still true, which models
the source loop never terminating. -/
def sort_impl (block_size : Nat) (with_values : Bool) (keySize valueSize : Nat)
    (temporary_storage : Bool)
    (keys_input keys_output₀ : List (K × V)) (size : Nat)
    (compare_function : K → K → Bool)
    (rt : HipRuntime) (debug_synchronous : Bool) : Option (SortResult K V) :=
  let keys_bytes := align_size ((size * keySize) % 2 ^ 64)
  let values_bytes := if with_values then align_size ((size * valueSize) % 2 ^ 64) else 0
  if temporary_storage = false then
    let s₀ := if with_values then (keys_bytes + values_bytes) % 2 ^ 64 else keys_bytes
    some { status := hipError.hipSuccess,
           storage_size := some (if s₀ = 0 then 4 else s₀),
           keys_output := keys_output₀, keys_buffer := [], trace := [] }
  else
    let grid_size := grid_val block_size size
    let out₁ := block_sort_kernel block_size compare_function keys_input
    let st₀ : LoopState K V :=
      { temporary_store := false, keys_output := out₁, keys_buffer := [],
        launches := 1,
        trace := [KernelLaunch.sortLaunch grid_size block_size size] }
    match checkLaunch rt debug_synchronous 0 with
    | hipError.hipFailure c =>
      some { status := hipError.hipFailure c, storage_size := none,
             keys_output := out₁, keys_buffer := [], trace := st₀.trace }
    | hipError.hipSuccess =>
      match merge_loop compare_function rt debug_synchronous block_size size grid_size
          size block_size st₀ with
      | none => none
      | some (hipError.hipFailure c, st) =>
        some { status := hipError.hipFailure c, storage_size := none,
               keys_output := st.keys_output, keys_buffer := st.keys_buffer,
               trace := st.trace }
      | some (hipError.hipSuccess, st) =>
        if st.temporary_store then
          let out₂ := block_copy_kernel st.keys_buffer
          let tr := st.trace ++ [KernelLaunch.copyLaunch grid_size block_size size]
          match checkLaunch rt debug_synchronous st.launches with
          | hipError.hipFailure c =>
            some { status := hipError.hipFailure c, storage_size := none,
                   keys_output := out₂, keys_buffer := st.keys_buffer, trace := tr }
          | hipError.hipSuccess =>
            some { status := hipError.hipSuccess, storage_size := none,
                   keys_output := out₂, keys_buffer := st.keys_buffer, trace := tr }
        else
          some { status := hipError.hipSuccess, storage_size := none,
                 keys_output := st.keys_output, keys_buffer := st.keys_buffer,
                 trace := st.trace }

/-- The keys-only public entry point `rocprim::sort`: values are the unit
type `empty_type` (`with_values` is false), `block_size` is fixed to 256. -/
def sort (keySize : Nat) (temporary_storage : Bool)
    (keys_input keys_output₀ : List K) (size : Nat)
    (compare_function : K → K → Bool)
    (rt : HipRuntime) (debug_synchronous : Bool) : Option (SortResult K empty_type) :=
  sort_impl 256 false keySize 1 temporary_storage
    (keys_input.map (fun k => (k, empty_type.mk)))
    (keys_output₀.map (fun k => (k, empty_type.mk)))
    size compare_function rt debug_synchronous

/-- The keys-with-values public entry point `rocprim::sort`: `block_size`
is fixed to 256; `with_values` models the compile-time test that the value
type is not `empty_type`. -/
def sort_pairs (keySize valueSize : Nat) (with_values : Bool)
    (temporary_storage : Bool)
    (input output₀ : List (K × V)) (size : Nat)
    (compare_function : K → K → Bool)
    (rt : HipRuntime) (debug_synchronous : Bool) : Option (SortResult K V) :=
  sort_impl 256 with_values keySize valueSize temporary_storage
    input output₀ size compare_function rt debug_synchronous

/-! ### Projections of an optional result -/

/-- The status of a call, when it returned. -/
def result_status (o : Option (SortResult K V)) : Option hipError :=
  o.map (fun r => r.status)

/-- The value the call wrote to `storage_size`, when it returned and wrote
one. -/
def result_storage (o : Option (SortResult K V)) : Option Nat :=
  match o with
  | some r => r.storage_size
  | none => none

/-- The final contents of the caller's output buffer, when the call
returned. -/
def result_output (o : Option (SortResult K V)) : List (K × V) :=
  match o with
  | some r => r.keys_output
  | none => []

/-- The trace of kernel launches of the call, when it returned. -/
def result_trace (o : Option (SortResult K V)) : List KernelLaunch :=
  match o with
  | some r => r.trace
  | none => []

/-! ### Basic facts about the runtime oracles and the comparator -/

theorem rtAllOk_ok : rtOk rtAllOk := fun _ => ⟨rfl, rfl⟩

theorem cmpNat_swo : SWO cmpNat := by
  constructor
  · intro a b h
    simp only [cmpNat, decide_eq_true_eq] at h
    simp only [cmpNat, decide_eq_false_iff_not]
    omega
  · intro a b c h1 h2
    simp only [cmpNat, decide_eq_false_iff_not] at h1 h2 ⊢
    omega

/-! ### Properties of `toChunks` -/

theorem toChunksGo_congr :
    ∀ (f₁ f₂ n : Nat) (l : List α), l.length ≤ f₁ → l.length ≤ f₂ →
      toChunksGo f₁ n l = toChunksGo f₂ n l := by
  intro f₁
  induction f₁ with
  | zero =>
    intro f₂ n l h₁ _
    have : l = [] := List.eq_nil_of_length_eq_zero (Nat.le_zero.mp h₁)
    subst this
    cases f₂ <;> rfl
  | succ f₁ ih =>
    intro f₂ n l h₁ h₂
    cases l with
    | nil => cases f₂ <;> rfl
    | cons a l' =>
      cases f₂ with
      | zero => simp at h₂
      | succ f₂ =>
        show (if n = 0 then [a :: l'] else _) = (if n = 0 then [a :: l'] else _)
        by_cases hn : n = 0
        · simp [hn]
        · have hn' : 1 ≤ n := Nat.pos_of_ne_zero hn
          have hd : ((a :: l').drop n).length ≤ f₁ := by
            simp only [List.length_drop, List.length_cons]
            simp only [List.length_cons] at h₁
            omega
          have hd₂ : ((a :: l').drop n).length ≤ f₂ := by
            simp only [List.length_drop, List.length_cons]
            simp only [List.length_cons] at h₂
            omega
          simp only [if_neg hn]
          rw [ih f₂ n _ hd hd₂]

theorem toChunks_eq {n : Nat} (hn : n ≠ 0) {l : List α} (hl : l ≠ []) :
    toChunks n l = l.take n :: toChunks n (l.drop n) := by
  cases l with
  | nil => exact absurd rfl hl
  | cons a l' =>
    show toChunksGo (l'.length + 1) n (a :: l') = _
    show (if n = 0 then [a :: l'] else _) = _
    rw [if_neg hn]
    refine congrArg (_ :: ·) ?_
    exact toChunksGo_congr l'.length ((a :: l').drop n).length n _
      (by simp only [List.length_drop, List.length_cons]; omega) le_rfl

theorem toChunks_zero {l : List α} (hl : l ≠ []) : toChunks 0 l = [l] := by
  cases l with
  | nil => exact absurd rfl hl
  | cons a l' => rfl

theorem toChunks_small {n : Nat} (hn : 0 < n) {l : List α} (hl : l ≠ [])
    (hlen : l.length ≤ n) : toChunks n l = [l] := by
  rw [toChunks_eq (Nat.pos_iff_ne_zero.mp hn) hl, List.take_of_length_le hlen,
    List.drop_eq_nil_of_le hlen]
  rfl

theorem toChunks_append {n : Nat} (hn : 0 < n) {c : List α} (hc : c.length = n)
    (l : List α) : toChunks n (c ++ l) = c :: toChunks n l := by
  have hcne : c ≠ [] := by
    intro h
    subst h
    simp at hc
    omega
  have hne : c ++ l ≠ [] := by
    intro h
    exact hcne (List.append_eq_nil.mp h).1
  rw [toChunks_eq (Nat.pos_iff_ne_zero.mp hn) hne, List.take_left' hc, List.drop_left' hc]

theorem toChunks_flatten (n : Nat) (l : List α) : (toChunks n l).flatten = l := by
  by_cases hl : l = []
  · subst hl
    rfl
  by_cases hn : n = 0
  · subst hn
    rw [toChunks_zero hl]
    simp
  by_cases hle : l.length ≤ n
  · rw [toChunks_small (Nat.pos_of_ne_zero hn) hl hle]
    simp
  · rw [toChunks_eq hn hl]
    have := toChunks_flatten n (l.drop n)
    simp only [List.flatten_cons, this]
    exact List.take_append_drop n l
termination_by l.length
decreasing_by
  simp only [List.length_drop]
  have : 0 < l.length := List.length_pos.mpr hl
  omega

theorem toChunks_ne_nil {n : Nat} (l : List α) : ∀ c ∈ toChunks n l, c ≠ [] := by
  by_cases hl : l = []
  · subst hl
    intro c hc
    simp [toChunks, toChunksGo] at hc
  by_cases hn : n = 0
  · subst hn
    rw [toChunks_zero hl]
    intro c hc
    rw [List.mem_singleton.mp hc]
    exact hl
  by_cases hle : l.length ≤ n
  · rw [toChunks_small (Nat.pos_of_ne_zero hn) hl hle]
    intro c hc
    rw [List.mem_singleton.mp hc]
    exact hl
  · rw [toChunks_eq hn hl]
    intro c hc
    rcases List.mem_cons.mp hc with h | h
    · subst h
      simp only [ne_eq, List.take_eq_nil_iff, not_or]
      exact ⟨hn, hl⟩
    · exact toChunks_ne_nil (l.drop n) c h
termination_by l.length
decreasing_by
  simp only [List.length_drop]
  have : 0 < l.length := List.length_pos.mpr hl
  omega

theorem toChunks_length_le {n : Nat} (hn : 0 < n) (l : List α) :
    ∀ c ∈ toChunks n l, c.length ≤ n := by
  by_cases hl : l = []
  · subst hl
    intro c hc
    simp [toChunks, toChunksGo] at hc
  by_cases hle : l.length ≤ n
  · rw [toChunks_small hn hl hle]
    intro c hc
    rw [List.mem_singleton.mp hc]
    exact hle
  · rw [toChunks_eq (Nat.pos_iff_ne_zero.mp hn) hl]
    intro c hc
    rcases List.mem_cons.mp hc with h | h
    · subst h
      exact List.length_take_le n l
    · exact toChunks_length_le hn (l.drop n) c h
termination_by l.length
decreasing_by
  simp only [List.length_drop]
  have : 0 < l.length := List.length_pos.mpr hl
  omega

theorem toChunks_map {n : Nat} (hn : 0 < n) (f : List α → List α)
    (hf : ∀ c, (f c).length = c.length) (l : List α) :
    toChunks n (((toChunks n l).map f).flatten) = (toChunks n l).map f := by
  by_cases hl : l = []
  · subst hl
    rfl
  by_cases hle : l.length ≤ n
  · rw [toChunks_small hn hl hle]
    simp only [List.map_cons, List.map_nil, List.flatten_cons, List.flatten_nil,
      List.append_nil]
    refine toChunks_small hn ?_ ?_
    · intro h
      have := hf l
      rw [h] at this
      exact hl (List.eq_nil_of_length_eq_zero this.symm)
    · rw [hf l]
      exact hle
  · rw [toChunks_eq (Nat.pos_iff_ne_zero.mp hn) hl]
    have hlen : (f (l.take n)).length = n := by
      rw [hf, List.length_take]
      omega
    simp only [List.map_cons, List.flatten_cons]
    rw [toChunks_append hn hlen, toChunks_map hn f hf (l.drop n)]
termination_by l.length
decreasing_by
  simp only [List.length_drop]
  have : 0 < l.length := List.length_pos.mpr hl
  omega

theorem toChunks_double {w : Nat} (hw : 0 < w) (l : List α) :
    toChunks w l = ((toChunks (2 * w) l).map (toChunks w)).flatten := by
  by_cases hl : l = []
  · subst hl
    rfl
  by_cases hle : l.length ≤ 2 * w
  · rw [toChunks_small (by omega) hl hle]
    simp
  · have h2w : (2 * w : Nat) ≠ 0 := by omega
    have hwne : w ≠ 0 := Nat.pos_iff_ne_zero.mp hw
    -- the first two width-w chunks of l
    have htkchunks : toChunks w (l.take (2 * w)) = [l.take w, (l.drop w).take w] := by
      have h₁ : l.take (2 * w) ≠ [] := by
        simp only [ne_eq, List.take_eq_nil_iff, not_or]
        exact ⟨h2w, hl⟩
      have h₃ : ((l.drop w).take w).length = w := by
        rw [List.length_take, List.length_drop]
        omega
      have h₄ : (l.drop w).take w ≠ [] := by
        intro h
        rw [h] at h₃
        simp only [List.length_nil] at h₃
        omega
      rw [toChunks_eq hwne h₁, List.take_take, Nat.min_def,
        if_pos (by omega : w ≤ 2 * w), List.drop_take]
      have h₂ : (2 * w - w : Nat) = w := by omega
      rw [h₂, toChunks_small hw h₄ (le_of_eq h₃)]
    have hdrop : l.drop w ≠ [] := by
      intro h
      have := congrArg List.length h
      simp only [List.length_drop, List.length_nil] at this
      omega
    have hlhs : toChunks w l = l.take w :: (l.drop w).take w :: toChunks w (l.drop (2 * w)) := by
      rw [toChunks_eq hwne hl, toChunks_eq hwne hdrop, List.drop_drop]
      have : (w + w : Nat) = 2 * w := by omega
      rw [this]
    rw [hlhs, toChunks_eq h2w hl]
    simp only [List.map_cons, List.flatten_cons, htkchunks]
    rw [← toChunks_double hw (l.drop (2 * w))]
    rfl
termination_by l.length
decreasing_by
  simp only [List.length_drop]
  have : 0 < l.length := List.length_pos.mpr hl
  omega

/-! ### Properties of the strict weak ordering and of the merge -/

theorem SWO.keyLe_total {cmp : K → K → Bool} (h : SWO cmp) (a b : K × V) :
    keyLe cmp a b ∨ keyLe cmp b a := by
  unfold keyLe
  cases hc : cmp b.1 a.1 with
  | false => exact Or.inl rfl
  | true => exact Or.inr (h.1 b.1 a.1 hc)

theorem SWO.keyLe_trans {cmp : K → K → Bool} (h : SWO cmp) {a b c : K × V} :
    keyLe cmp a b → keyLe cmp b c → keyLe cmp a c :=
  fun h₁ h₂ => h.2 a.1 b.1 c.1 h₁ h₂

theorem mergeF_perm (cmp : K → K → Bool) :
    ∀ (fuel : Nat) (l₁ l₂ : List (K × V)), (mergeF cmp fuel l₁ l₂).Perm (l₁ ++ l₂) := by
  intro fuel
  induction fuel with
  | zero => intro l₁ l₂; exact List.Perm.refl _
  | succ fuel ih =>
    intro l₁ l₂
    cases l₁ with
    | nil => exact List.Perm.refl _
    | cons a l₁ =>
      cases l₂ with
      | nil => simp [mergeF]
      | cons b l₂ =>
        rw [mergeF]
        by_cases hc : cmp b.1 a.1
        · rw [if_pos hc]
          exact ((ih (a :: l₁) l₂).cons b).trans List.perm_middle.symm
        · rw [if_neg hc]
          exact (ih l₁ (b :: l₂)).cons a

theorem merge2_perm (cmp : K → K → Bool) (l₁ l₂ : List (K × V)) :
    (merge2 cmp l₁ l₂).Perm (l₁ ++ l₂) :=
  mergeF_perm cmp _ l₁ l₂

theorem mergeF_sorted {cmp : K → K → Bool} (h : SWO cmp) :
    ∀ (fuel : Nat) (l₁ l₂ : List (K × V)), l₁.length + l₂.length ≤ fuel →
      List.Sorted (keyLe cmp) l₁ → List.Sorted (keyLe cmp) l₂ →
      List.Sorted (keyLe cmp) (mergeF cmp fuel l₁ l₂) := by
  intro fuel
  induction fuel with
  | zero =>
    intro l₁ l₂ hf _ _
    have h₁ : l₁ = [] := List.eq_nil_of_length_eq_zero (by omega)
    have h₂ : l₂ = [] := List.eq_nil_of_length_eq_zero (by omega)
    subst h₁; subst h₂
    exact List.sorted_nil
  | succ fuel ih =>
    intro l₁ l₂ hf h₁ h₂
    cases l₁ with
    | nil => exact h₂
    | cons a l₁ =>
      cases l₂ with
      | nil => exact h₁
      | cons b l₂ =>
        rw [mergeF]
        by_cases hc : cmp b.1 a.1
        · rw [if_pos hc]
          rw [List.sorted_cons]
          constructor
          · intro x hx
            have hx' := (mergeF_perm cmp fuel (a :: l₁) l₂).mem_iff.mp hx
            have hba : keyLe cmp b a := h.1 b.1 a.1 hc
            rcases List.mem_append.mp hx' with hx₁ | hx₂
            · rcases List.mem_cons.mp hx₁ with rfl | hx₁
              · exact hba
              · exact h.keyLe_trans hba (List.rel_of_sorted_cons h₁ x hx₁)
            · exact List.rel_of_sorted_cons h₂ x hx₂
          · refine ih (a :: l₁) l₂ ?_ h₁ h₂.of_cons
            simp only [List.length_cons] at hf ⊢
            omega
        · rw [if_neg hc]
          rw [List.sorted_cons]
          constructor
          · intro x hx
            have hx' := (mergeF_perm cmp fuel l₁ (b :: l₂)).mem_iff.mp hx
            have hab : keyLe cmp a b := by
              unfold keyLe
              exact Bool.not_eq_true _ ▸ eq_false_of_ne_true hc
            rcases List.mem_append.mp hx' with hx₁ | hx₂
            · exact List.rel_of_sorted_cons h₁ x hx₁
            · rcases List.mem_cons.mp hx₂ with rfl | hx₂
              · exact hab
              · exact h.keyLe_trans hab (List.rel_of_sorted_cons h₂ x hx₂)
          · refine ih l₁ (b :: l₂) ?_ h₁.of_cons h₂
            simp only [List.length_cons] at hf ⊢
            omega

theorem merge2_sorted {cmp : K → K → Bool} (h : SWO cmp) {l₁ l₂ : List (K × V)}
    (h₁ : List.Sorted (keyLe cmp) l₁) (h₂ : List.Sorted (keyLe cmp) l₂) :
    List.Sorted (keyLe cmp) (merge2 cmp l₁ l₂) :=
  mergeF_sorted h _ l₁ l₂ le_rfl h₁ h₂

theorem mergeF_of_sorted_append {cmp : K → K → Bool} :
    ∀ (fuel : Nat) (l₁ l₂ : List (K × V)), l₁.length + l₂.length ≤ fuel →
      List.Sorted (keyLe cmp) (l₁ ++ l₂) → mergeF cmp fuel l₁ l₂ = l₁ ++ l₂ := by
  intro fuel
  induction fuel with
  | zero => intro l₁ l₂ _ _; rfl
  | succ fuel ih =>
    intro l₁ l₂ hf hs
    cases l₁ with
    | nil => rfl
    | cons a l₁ =>
      cases l₂ with
      | nil => simp [mergeF]
      | cons b l₂ =>
        have hscons : List.Sorted (keyLe cmp) (a :: (l₁ ++ b :: l₂)) := hs
        have hab : keyLe cmp a b :=
          List.rel_of_sorted_cons hscons b
            (List.mem_append.mpr (Or.inr (List.mem_cons_self b l₂)))
        rw [mergeF, if_neg (by rw [hab]; exact Bool.false_ne_true)]
        have hs' : List.Sorted (keyLe cmp) (l₁ ++ b :: l₂) :=
          ((List.sorted_cons).mp hscons).2
        rw [ih l₁ (b :: l₂) (by simp only [List.length_cons] at hf ⊢; omega) hs']
        rfl

theorem merge2_of_sorted_append {cmp : K → K → Bool} {l₁ l₂ : List (K × V)}
    (hs : List.Sorted (keyLe cmp) (l₁ ++ l₂)) : merge2 cmp l₁ l₂ = l₁ ++ l₂ :=
  mergeF_of_sorted_append _ l₁ l₂ le_rfl hs

/-! ### Sortedness facts about the adjacent-pair check -/

theorem adjacent_of_sorted {cmp : K → K → Bool} :
    ∀ {l : List (K × V)}, List.Sorted (keyLe cmp) l → adjacent_ordered cmp l = true := by
  intro l
  induction l with
  | nil => intro _; rfl
  | cons a l ih =>
    intro hs
    cases l with
    | nil => rfl
    | cons b l =>
      have hab : keyLe cmp a b := List.rel_of_sorted_cons hs b (List.mem_cons_self b l)
      show (!(cmp b.1 a.1) && adjacent_ordered cmp (b :: l)) = true
      rw [hab, ih hs.of_cons]
      rfl

theorem sorted_of_adjacent {cmp : K → K → Bool} (h : SWO cmp) :
    ∀ {l : List (K × V)}, adjacent_ordered cmp l = true → List.Sorted (keyLe cmp) l := by
  intro l
  induction l with
  | nil => intro _; exact List.sorted_nil
  | cons a l ih =>
    intro ha
    cases l with
    | nil => exact List.sorted_singleton a
    | cons b l =>
      have ha' : (!(cmp b.1 a.1) && adjacent_ordered cmp (b :: l)) = true := ha
      rw [Bool.and_eq_true] at ha'
      have hab : keyLe cmp a b := by
        unfold keyLe
        have := ha'.1
        cases hc : cmp b.1 a.1
        · rfl
        · rw [hc] at this; exact absurd this (by simp)
      have htail : List.Sorted (keyLe cmp) (b :: l) := ih ha'.2
      rw [List.sorted_cons]
      refine ⟨?_, htail⟩
      intro x hx
      rcases List.mem_cons.mp hx with rfl | hx
      · exact hab
      · exact h.keyLe_trans hab (List.rel_of_sorted_cons htail x hx)

/-! ### The kernels permute their input and produce sorted runs -/

theorem flatten_map_perm {ps : List (List α)} {f : List α → List α}
    (hf : ∀ c ∈ ps, (f c).Perm c) :
    (ps.map f).flatten.Perm ps.flatten := by
  induction ps with
  | nil => exact List.Perm.refl _
  | cons c ps ih =>
    simp only [List.map_cons, List.flatten_cons]
    exact (hf c (List.mem_cons_self c ps)).append
      (ih (fun c hc => hf c (List.mem_cons_of_mem _ hc)))

theorem block_sort_perm (block_size : Nat) (cmp : K → K → Bool)
    (l : List (K × V)) : (block_sort_kernel block_size cmp l).Perm l := by
  unfold block_sort_kernel
  refine (flatten_map_perm ?_).trans (by rw [toChunks_flatten])
  intro c _
  exact List.perm_insertionSort (keyLe cmp) c

theorem block_merge_perm (cmp : K → K → Bool) (w : Nat) (l : List (K × V)) :
    (block_merge_kernel cmp w l).Perm l := by
  unfold block_merge_kernel
  refine (flatten_map_perm ?_).trans (by rw [toChunks_flatten])
  intro c _
  exact (merge2_perm cmp _ _).trans (by rw [List.take_append_drop])

theorem block_sort_runs {cmp : K → K → Bool} (h : SWO cmp) {block_size : Nat}
    (hb : 0 < block_size) (l : List (K × V)) :
    RunsSorted cmp block_size (block_sort_kernel block_size cmp l) := by
  letI : IsTotal (K × V) (keyLe cmp) := ⟨h.keyLe_total⟩
  letI : IsTrans (K × V) (keyLe cmp) := ⟨fun _ _ _ hab hbc => h.keyLe_trans hab hbc⟩
  intro c hc
  unfold block_sort_kernel at hc
  rw [toChunks_map hb _ (fun c => List.length_insertionSort (keyLe cmp) c) l] at hc
  rcases List.mem_map.mp hc with ⟨c₀, _, rfl⟩
  exact List.sorted_insertionSort (keyLe cmp) c₀

theorem half_runs_sorted {cmp : K → K → Bool} {w : Nat} (hw : 0 < w)
    {l : List (K × V)} (hrs : RunsSorted cmp w l) :
    ∀ c ∈ toChunks (2 * w) l,
      List.Sorted (keyLe cmp) (c.take w) ∧ List.Sorted (keyLe cmp) (c.drop w) := by
  intro c hc
  have hmem : ∀ d ∈ toChunks w c, d ∈ toChunks w l := by
    intro d hd
    rw [toChunks_double hw l]
    exact List.mem_flatten.mpr ⟨toChunks w c, List.mem_map_of_mem (toChunks w) hc, hd⟩
  have hcne : c ≠ [] := toChunks_ne_nil l c hc
  have hclen : c.length ≤ 2 * w := toChunks_length_le (by omega) l c hc
  by_cases hcw : c.length ≤ w
  · constructor
    · rw [List.take_of_length_le hcw]
      refine hrs c (hmem c ?_)
      rw [toChunks_small hw hcne hcw]
      exact List.mem_singleton_self c
    · rw [List.drop_eq_nil_of_le hcw]
      exact List.sorted_nil
  · have htdlen : ((c.drop w).length ≤ w) := by
      rw [List.length_drop]
      omega
    have hdne : c.drop w ≠ [] := by
      intro hnil
      have := congrArg List.length hnil
      simp only [List.length_drop, List.length_nil] at this
      omega
    have hchunks : toChunks w c = [c.take w, c.drop w] := by
      rw [toChunks_eq (Nat.pos_iff_ne_zero.mp hw) hcne,
        toChunks_small hw hdne htdlen]
    constructor
    · refine hrs _ (hmem _ ?_)
      rw [hchunks]
      exact List.mem_cons_self _ _
    · refine hrs _ (hmem _ ?_)
      rw [hchunks]
      exact List.mem_cons_of_mem _ (List.mem_singleton_self _)

theorem block_merge_runs {cmp : K → K → Bool} (h : SWO cmp) {w : Nat}
    (hw : 0 < w) {l : List (K × V)} (hrs : RunsSorted cmp w l) :
    RunsSorted cmp (2 * w) (block_merge_kernel cmp w l) := by
  intro c hc
  unfold block_merge_kernel at hc
  have hlenpres : ∀ c : List (K × V), (merge2 cmp (c.take w) (c.drop w)).length = c.length := by
    intro c
    rw [(merge2_perm cmp _ _).length_eq, List.length_append, ← List.length_append,
      List.take_append_drop]
  rw [toChunks_map (by omega) _ hlenpres l] at hc
  rcases List.mem_map.mp hc with ⟨c₀, hc₀, rfl⟩
  rcases half_runs_sorted hw hrs c₀ hc₀ with ⟨h₁, h₂⟩
  exact merge2_sorted h h₁ h₂

theorem RunsSorted.sorted_of_le {cmp : K → K → Bool} {w : Nat}
    {l : List (K × V)} (hlen : l.length ≤ w) (hrs : RunsSorted cmp w l) :
    List.Sorted (keyLe cmp) l := by
  by_cases hl : l = []
  · subst hl
    exact List.sorted_nil
  · have hw : 0 < w := by
      have : 0 < l.length := List.length_pos.mpr hl
      omega
    refine hrs l ?_
    rw [toChunks_small hw hl hlen]
    exact List.mem_singleton_self l

theorem toChunks_sorted {cmp : K → K → Bool} {n : Nat} {l : List (K × V)}
    (hs : List.Sorted (keyLe cmp) l) : ∀ c ∈ toChunks n l, List.Sorted (keyLe cmp) c := by
  by_cases hl : l = []
  · subst hl
    intro c hc
    simp [toChunks, toChunksGo] at hc
  by_cases hn : n = 0
  · subst hn
    rw [toChunks_zero hl]
    intro c hc
    rw [List.mem_singleton.mp hc]
    exact hs
  by_cases hle : l.length ≤ n
  · rw [toChunks_small (Nat.pos_of_ne_zero hn) hl hle]
    intro c hc
    rw [List.mem_singleton.mp hc]
    exact hs
  · rw [toChunks_eq hn hl]
    intro c hc
    rcases List.mem_cons.mp hc with rfl | hc
    · exact hs.sublist (List.take_sublist n l)
    · exact toChunks_sorted (hs.sublist (List.drop_sublist n l)) c hc
termination_by l.length
decreasing_by
  simp only [List.length_drop]
  have : 0 < l.length := List.length_pos.mpr hl
  omega

theorem block_merge_of_sorted {cmp : K → K → Bool} {w : Nat}
    {l : List (K × V)} (hs : List.Sorted (keyLe cmp) l) :
    block_merge_kernel cmp w l = l := by
  unfold block_merge_kernel
  have hmap : (toChunks (2 * w) l).map (fun c => merge2 cmp (c.take w) (c.drop w)) =
      (toChunks (2 * w) l).map id := by
    refine List.map_congr_left ?_
    intro c hc
    have hcs : List.Sorted (keyLe cmp) (c.take w ++ c.drop w) := by
      rw [List.take_append_drop]
      exact toChunks_sorted hs c hc
    rw [merge2_of_sorted_append hcs, List.take_append_drop]
    rfl
  rw [hmap, List.map_id, toChunks_flatten]

theorem block_sort_of_sorted {cmp : K → K → Bool} {block_size : Nat}
    {l : List (K × V)} (hs : List.Sorted (keyLe cmp) l) :
    block_sort_kernel block_size cmp l = l := by
  unfold block_sort_kernel
  have hmap : (toChunks block_size l).map (List.insertionSort (keyLe cmp)) =
      (toChunks block_size l).map id := by
    refine List.map_congr_left ?_
    intro c hc
    exact (toChunks_sorted hs c hc).insertionSort_eq
  rw [hmap, List.map_id, toChunks_flatten]

/-! ### The iterated merge passes -/

theorem merge_iter_perm (cmp : K → K → Bool) (size : Nat) :
    ∀ (fuel block : Nat) (l : List (K × V)), (merge_iter cmp size fuel block l).Perm l := by
  intro fuel
  induction fuel with
  | zero => intro block l; exact List.Perm.refl _
  | succ fuel ih =>
    intro block l
    rw [merge_iter]
    by_cases hb : block < size
    · rw [if_pos hb]
      exact (ih _ _).trans (block_merge_perm cmp block l)
    · rw [if_neg hb]

theorem merge_iter_sorted {cmp : K → K → Bool} (h : SWO cmp) {size : Nat}
    (hsz : size ≤ 2 ^ 31) :
    ∀ (fuel block : Nat) (l : List (K × V)), 0 < block → size ≤ block * 2 ^ fuel →
      l.length = size → RunsSorted cmp block l →
      List.Sorted (keyLe cmp) (merge_iter cmp size fuel block l) := by
  intro fuel
  induction fuel with
  | zero =>
    intro block l _ hfuel hlen hrs
    refine hrs.sorted_of_le ?_
    rw [hlen]
    simpa using hfuel
  | succ fuel ih =>
    intro block l hb hfuel hlen hrs
    rw [merge_iter]
    by_cases hguard : block < size
    · rw [if_pos hguard]
      have hnowrap : (block * 2) % 2 ^ 32 = block * 2 := by
        refine Nat.mod_eq_of_lt ?_
        have h31 : block < 2 ^ 31 := by omega
        have : (2 ^ 32 : Nat) = 2 ^ 31 * 2 := by norm_num
        omega
      rw [hnowrap]
      have h2b : block * 2 = 2 * block := Nat.mul_comm block 2
      rw [h2b]
      refine ih (2 * block) (block_merge_kernel cmp block l) (by omega) ?_ ?_ ?_
      · rw [Nat.pow_succ] at hfuel
        calc size ≤ block * (2 ^ fuel * 2) := hfuel
        _ = 2 * block * 2 ^ fuel := by ring
      · rw [(block_merge_perm cmp block l).length_eq, hlen]
      · exact block_merge_runs h hb hrs
    · rw [if_neg hguard]
      refine hrs.sorted_of_le ?_
      omega

theorem merge_iter_of_sorted {cmp : K → K → Bool} {size : Nat}
    {l : List (K × V)} (hs : List.Sorted (keyLe cmp) l) :
    ∀ (fuel block : Nat), merge_iter cmp size fuel block l = l := by
  intro fuel
  induction fuel with
  | zero => intro block; rfl
  | succ fuel ih =>
    intro block
    rw [merge_iter]
    by_cases hb : block < size
    · rw [if_pos hb, block_merge_of_sorted hs, ih]
    · rw [if_neg hb]

/-! ### The merge loop against a benign runtime -/

theorem checkLaunch_ok {rt : HipRuntime} (hrt : rtOk rt) (debug : Bool) (k : Nat) :
    checkLaunch rt debug k = hipError.hipSuccess := by
  unfold checkLaunch
  rw [(hrt k).1]
  cases debug
  · rfl
  · simpa using (hrt k).2

theorem merge_loop_eq_pure {cmp : K → K → Bool} {rt : HipRuntime}
    {debug : Bool} {bs size grid : Nat} (hrt : rtOk rt) (hsz : size ≤ 2 ^ 31) :
    ∀ (fuel block : Nat) (st : LoopState K V), size ≤ block * 2 ^ fuel →
      merge_loop cmp rt debug bs size grid fuel block st =
        some (hipError.hipSuccess, merge_loop_pure cmp bs size grid fuel block st) := by
  intro fuel
  induction fuel with
  | zero =>
    intro block st hfuel
    rw [merge_loop, merge_loop_pure]
    rw [if_neg (by simpa using Nat.not_lt.mpr (by simpa using hfuel))]
  | succ fuel ih =>
    intro block st hfuel
    rw [merge_loop, merge_loop_pure]
    by_cases hguard : block < size
    · rw [if_pos hguard, if_pos hguard]
      simp only [checkLaunch_ok hrt]
      refine ih ((block * 2) % 2 ^ 32) _ ?_
      have hnowrap : (block * 2) % 2 ^ 32 = block * 2 := by
        refine Nat.mod_eq_of_lt ?_
        have : (2 ^ 32 : Nat) = 2 ^ 31 * 2 := by norm_num
        omega
      rw [hnowrap]
      rw [Nat.pow_succ] at hfuel
      calc size ≤ block * (2 ^ fuel * 2) := hfuel
      _ = block * 2 * 2 ^ fuel := by ring
    · rw [if_neg hguard, if_neg hguard]

theorem merge_step_temporary_store (cmp : K → K → Bool) (bs size grid block : Nat)
    (st : LoopState K V) :
    (merge_step cmp bs size grid block st).temporary_store = !st.temporary_store := by
  cases hts : st.temporary_store <;> simp [merge_step, hts]

theorem merge_step_launches (cmp : K → K → Bool) (bs size grid block : Nat)
    (st : LoopState K V) :
    (merge_step cmp bs size grid block st).launches = st.launches + 1 := by
  cases hts : st.temporary_store <;> simp [merge_step, hts]

theorem merge_step_trace (cmp : K → K → Bool) (bs size grid block : Nat)
    (st : LoopState K V) :
    (merge_step cmp bs size grid block st).trace =
      st.trace ++ [KernelLaunch.mergeLaunch grid bs size block (!st.temporary_store)] := by
  cases hts : st.temporary_store <;> simp [merge_step, hts]

theorem merge_step_auth (cmp : K → K → Bool) (bs size grid block : Nat)
    (st : LoopState K V) :
    auth (merge_step cmp bs size grid block st) =
      block_merge_kernel cmp block (auth st) := by
  cases hts : st.temporary_store <;> simp [auth, merge_step, hts]

theorem merge_loop_pure_auth (cmp : K → K → Bool) (bs size grid : Nat) :
    ∀ (fuel block : Nat) (st : LoopState K V),
      auth (merge_loop_pure cmp bs size grid fuel block st) =
        merge_iter cmp size fuel block (auth st) := by
  intro fuel
  induction fuel with
  | zero => intro block st; rfl
  | succ fuel ih =>
    intro block st
    rw [merge_loop_pure, merge_iter]
    by_cases hguard : block < size
    · rw [if_pos hguard, if_pos hguard, ih, merge_step_auth]
    · rw [if_neg hguard, if_neg hguard]

theorem merge_loop_pure_ts (cmp : K → K → Bool) (bs size grid : Nat) :
    ∀ (fuel block : Nat) (st : LoopState K V),
      (merge_loop_pure cmp bs size grid fuel block st).temporary_store =
        (if merge_passes size fuel block % 2 = 1 then !st.temporary_store
         else st.temporary_store) := by
  intro fuel
  induction fuel with
  | zero => intro block st; rfl
  | succ fuel ih =>
    intro block st
    rw [merge_loop_pure, merge_passes]
    by_cases hguard : block < size
    · rw [if_pos hguard, if_pos hguard]
      rw [ih, merge_step_temporary_store]
      rcases Nat.mod_two_eq_zero_or_one
          (merge_passes size fuel ((block * 2) % 2 ^ 32)) with h | h
      · have h' : (merge_passes size fuel ((block * 2) % 2 ^ 32) + 1) % 2 = 1 := by
          omega
        rw [h, h']
        simp
      · have h' : (merge_passes size fuel ((block * 2) % 2 ^ 32) + 1) % 2 = 0 := by
          omega
        rw [h, h']
        simp
    · rw [if_neg hguard, if_neg hguard]
      rfl

theorem merge_loop_pure_trace (cmp : K → K → Bool) (bs size grid : Nat) :
    ∀ (fuel block : Nat) (st : LoopState K V),
      (merge_loop_pure cmp bs size grid fuel block st).trace =
        st.trace ++ merge_trace bs size grid fuel block st.temporary_store := by
  intro fuel
  induction fuel with
  | zero => intro block st; simp [merge_loop_pure, merge_trace]
  | succ fuel ih =>
    intro block st
    rw [merge_loop_pure, merge_trace]
    by_cases hguard : block < size
    · rw [if_pos hguard, if_pos hguard]
      rw [ih, merge_step_trace, merge_step_temporary_store]
      simp [List.append_assoc]
    · rw [if_neg hguard, if_neg hguard]
      simp

theorem merge_loop_pure_launches (cmp : K → K → Bool) (bs size grid : Nat) :
    ∀ (fuel block : Nat) (st : LoopState K V),
      (merge_loop_pure cmp bs size grid fuel block st).launches =
        st.launches + merge_passes size fuel block := by
  intro fuel
  induction fuel with
  | zero => intro block st; rfl
  | succ fuel ih =>
    intro block st
    rw [merge_loop_pure, merge_passes]
    by_cases hguard : block < size
    · rw [if_pos hguard, if_pos hguard]
      rw [ih, merge_step_launches]
      omega
    · rw [if_neg hguard, if_neg hguard]
      rfl

/-! ### The merge-pass schedule -/

theorem merge_trace_length (bs size grid : Nat) :
    ∀ (fuel block : Nat) (ts : Bool),
      (merge_trace bs size grid fuel block ts).length = merge_passes size fuel block := by
  intro fuel
  induction fuel with
  | zero => intro block ts; rfl
  | succ fuel ih =>
    intro block ts
    rw [merge_trace, merge_passes]
    by_cases hguard : block < size
    · rw [if_pos hguard, if_pos hguard]
      simp only [List.length_cons, ih]
    · rw [if_neg hguard, if_neg hguard]
      rfl

theorem merge_trace_mem (bs size grid : Nat) :
    ∀ (fuel block : Nat) (ts : Bool), ∀ e ∈ merge_trace bs size grid fuel block ts,
      e.isMerge = true ∧ e.grid = grid := by
  intro fuel
  induction fuel with
  | zero => intro block ts e he; simp [merge_trace] at he
  | succ fuel ih =>
    intro block ts e he
    rw [merge_trace] at he
    by_cases hguard : block < size
    · rw [if_pos hguard] at he
      rcases List.mem_cons.mp he with rfl | he
      · exact ⟨rfl, rfl⟩
      · exact ih _ _ e he
    · rw [if_neg hguard] at he
      simp at he

theorem merge_passes_zero {size block : Nat} (h : ¬ block < size) (fuel : Nat) :
    merge_passes size fuel block = 0 := by
  cases fuel with
  | zero => rfl
  | succ fuel => rw [merge_passes, if_neg h]

theorem merge_passes_spec {size : Nat} (hsz : size ≤ 2 ^ 31) :
    ∀ (fuel block : Nat), 0 < block → size ≤ block * 2 ^ fuel →
      size ≤ block * 2 ^ merge_passes size fuel block ∧
      ∀ j < merge_passes size fuel block, block * 2 ^ j < size := by
  intro fuel
  induction fuel with
  | zero =>
    intro block _ hfuel
    rw [merge_passes]
    refine ⟨by simpa using hfuel, ?_⟩
    intro j hj
    simp at hj
  | succ fuel ih =>
    intro block hb hfuel
    rw [merge_passes]
    by_cases hguard : block < size
    · rw [if_pos hguard]
      have hnowrap : (block * 2) % 2 ^ 32 = block * 2 := by
        refine Nat.mod_eq_of_lt ?_
        have : (2 ^ 32 : Nat) = 2 ^ 31 * 2 := by norm_num
        omega
      rw [hnowrap]
      have hfuel' : size ≤ block * 2 * 2 ^ fuel := by
        rw [Nat.pow_succ] at hfuel
        calc size ≤ block * (2 ^ fuel * 2) := hfuel
        _ = block * 2 * 2 ^ fuel := by ring
      have hrec := ih (block * 2) (by omega) hfuel'
      constructor
      · rw [Nat.pow_succ]
        calc size ≤ block * 2 * 2 ^ merge_passes size fuel (block * 2) := hrec.1
        _ = block * (2 ^ merge_passes size fuel (block * 2) * 2) := by ring
      · intro j hj
        cases j with
        | zero => simpa using hguard
        | succ j =>
          have := hrec.2 j (by omega)
          rw [Nat.pow_succ]
          calc block * (2 ^ j * 2) = block * 2 * 2 ^ j := by ring
          _ < size := this
    · rw [if_neg hguard]
      exact ⟨by simpa using Nat.not_lt.mp hguard, by intro j hj; simp at hj⟩

theorem div_le_iff_le_mul_256 {size t : Nat} : (size + 255) / 256 ≤ t ↔ size ≤ 256 * t := by
  rw [Nat.div_le_iff_le_mul_add_pred (by norm_num : (0:Nat) < 256)]
  omega

theorem merge_passes_eq_clog {size : Nat} (hsz : size ≤ 2 ^ 31) :
    merge_passes size size 256 = Nat.clog 2 ((size + 255) / 256) := by
  have hfuel : size ≤ 256 * 2 ^ size := by
    have h1 : size < 2 ^ size := Nat.lt_two_pow size
    have h2 : (2 : Nat) ^ size ≤ 256 * 2 ^ size := by
      have : 0 < 2 ^ size := Nat.pos_pow_of_pos size (by norm_num)
      omega
    omega
  rcases merge_passes_spec hsz size 256 (by norm_num) hfuel with ⟨h₁, h₂⟩
  refine le_antisymm ?_ ?_
  · by_contra hlt
    push_neg at hlt
    have hc := h₂ (Nat.clog 2 ((size + 255) / 256)) hlt
    have hm : (size + 255) / 256 ≤ 2 ^ Nat.clog 2 ((size + 255) / 256) :=
      Nat.le_pow_clog (by norm_num) _
    have : size ≤ 256 * 2 ^ Nat.clog 2 ((size + 255) / 256) :=
      div_le_iff_le_mul_256.mp hm
    omega
  · rw [← Nat.le_pow_iff_clog_le (by norm_num : 1 < 2)]
    refine div_le_iff_le_mul_256.mpr ?_
    calc size ≤ 256 * 2 ^ merge_passes size size 256 := h₁
    _ = 256 * 2 ^ merge_passes size size 256 := rfl

/-! ### Divergence of the merge loop beyond 2^31 elements -/

theorem merge_loop_diverges {cmp : K → K → Bool} {rt : HipRuntime}
    {debug : Bool} {bs size grid : Nat} (hrt : rtOk rt) (hsz : 2 ^ 31 < size) :
    ∀ (fuel block : Nat) (st : LoopState K V),
      (block = 0 ∨ ∃ j, j ≤ 31 ∧ block = 2 ^ j) →
      merge_loop cmp rt debug bs size grid fuel block st = none := by
  intro fuel
  induction fuel with
  | zero =>
    intro block st hinv
    rw [merge_loop]
    rw [if_pos ?_]
    rcases hinv with rfl | ⟨j, hj, rfl⟩
    · omega
    · have : (2 : Nat) ^ j ≤ 2 ^ 31 := Nat.pow_le_pow_right (by norm_num) hj
      omega
  | succ fuel ih =>
    intro block st hinv
    have hguard : block < size := by
      rcases hinv with rfl | ⟨j, hj, rfl⟩
      · omega
      · have : (2 : Nat) ^ j ≤ 2 ^ 31 := Nat.pow_le_pow_right (by norm_num) hj
        omega
    rw [merge_loop, if_pos hguard]
    simp only [checkLaunch_ok hrt]
    refine ih ((block * 2) % 2 ^ 32) _ ?_
    rcases hinv with rfl | ⟨j, hj, rfl⟩
    · left
      rfl
    · by_cases hj31 : j = 31

      · left
        subst hj31
        have : (2 : Nat) ^ 31 * 2 = 2 ^ 32 := by norm_num
        rw [this]
        exact Nat.mod_self _
      · right
        refine ⟨j + 1, by omega, ?_⟩
        have hlt : (2 : Nat) ^ j * 2 < 2 ^ 32 := by
          have h1 : (2 : Nat) ^ j * 2 = 2 ^ (j + 1) := by rw [Nat.pow_succ]
          rw [h1]
          exact Nat.pow_lt_pow_right (by norm_num) (by omega)
        rw [Nat.mod_eq_of_lt hlt, Nat.pow_succ]

theorem sort_impl_diverges {K V : Type} (keySize valueSize : Nat)
    (with_values : Bool) (input output₀ : List (K × V)) (size : Nat)
    (cmp : K → K → Bool) {rt : HipRuntime} (hrt : rtOk rt) (debug : Bool)
    (hsz : 2 ^ 31 < size) :
    sort_impl 256 with_values keySize valueSize true input output₀ size cmp rt
      debug = none := by
  simp only [sort_impl, if_neg (by simp : ¬ (true = false)), checkLaunch_ok hrt]
  rw [merge_loop_diverges hrt hsz _ _ _ (Or.inr ⟨8, by norm_num, by norm_num⟩)]

/-! ### The debug flag does not change the computation against a benign runtime -/

theorem merge_loop_debug_irrelevant {cmp : K → K → Bool} {rt : HipRuntime}
    {bs size grid : Nat} (hrt : rtOk rt) :
    ∀ (fuel block : Nat) (st : LoopState K V),
      merge_loop cmp rt true bs size grid fuel block st =
        merge_loop cmp rt false bs size grid fuel block st := by
  intro fuel
  induction fuel with
  | zero => intro block st; rfl
  | succ fuel ih =>
    intro block st
    rw [merge_loop, merge_loop]
    by_cases hguard : block < size
    · rw [if_pos hguard, if_pos hguard]
      simp only [checkLaunch_ok hrt]
      exact ih _ _
    · rw [if_neg hguard, if_neg hguard]

/-! ### Fail-fast characterization of the merge loop -/

theorem merge_loop_status {cmp : K → K → Bool} {rt : HipRuntime}
    {debug : Bool} {bs size grid : Nat} :
    ∀ (fuel block : Nat) (st : LoopState K V) (e : hipError) (st' : LoopState K V),
      st.trace.length = st.launches →
      merge_loop cmp rt debug bs size grid fuel block st = some (e, st') →
      st'.trace.length = st'.launches ∧ st.launches ≤ st'.launches ∧
      (e = hipError.hipSuccess →
        ∀ j, st.launches ≤ j → j < st'.launches →
          checkLaunch rt debug j = hipError.hipSuccess) ∧
      (∀ c, e = hipError.hipFailure c →
        st.launches < st'.launches ∧
        checkLaunch rt debug (st'.launches - 1) = hipError.hipFailure c ∧
        ∀ j, st.launches ≤ j → j < st'.launches - 1 →
          checkLaunch rt debug j = hipError.hipSuccess) := by
  intro fuel
  induction fuel with
  | zero =>
    intro block st e st' hwf hml
    rw [merge_loop] at hml
    by_cases hguard : block < size
    · rw [if_pos hguard] at hml
      exact absurd hml (by simp)
    · rw [if_neg hguard] at hml
      have he : hipError.hipSuccess = e ∧ st = st' := by
        have := Option.some.inj hml
        exact ⟨congrArg Prod.fst this, congrArg Prod.snd this⟩
      rcases he with ⟨he, hst⟩
      subst he
      subst hst
      refine ⟨hwf, le_rfl, ?_, ?_⟩
      · intro _ j hj₁ hj₂
        omega
      · intro c hc
        exact absurd hc.symm (by simp)
  | succ fuel ih =>
    intro block st e st' hwf hml
    rw [merge_loop] at hml
    by_cases hguard : block < size
    · rw [if_pos hguard] at hml
      have hwf' : (merge_step cmp bs size grid block st).trace.length =
          (merge_step cmp bs size grid block st).launches := by
        rw [merge_step_trace, merge_step_launches, List.length_append, hwf]
        rfl
      cases hc : checkLaunch rt debug st.launches with
      | hipFailure c =>
        rw [hc] at hml
        have he : hipError.hipFailure c = e ∧ merge_step cmp bs size grid block st = st' := by
          have := Option.some.inj hml
          exact ⟨congrArg Prod.fst this, congrArg Prod.snd this⟩
        rcases he with ⟨he, hst⟩
        subst he
        subst hst
        rw [merge_step_launches] at hwf' ⊢
        refine ⟨hwf', by omega, ?_, ?_⟩
        · intro habs
          exact absurd habs (by simp)
        · intro c' hc'
          have : c = c' := (hipError.hipFailure.inj hc'.symm).symm
          subst this
          refine ⟨by omega, ?_, ?_⟩
          · have : st.launches + 1 - 1 = st.launches := by omega
            rw [this, hc]
          · intro j hj₁ hj₂
            omega
      | hipSuccess =>
        rw [hc] at hml
        have hrec := ih ((block * 2) % 2 ^ 32) (merge_step cmp bs size grid block st)
          e st' hwf' hml
        rcases hrec with ⟨hwf'', hmono, hsucc, hfail⟩
        rw [merge_step_launches] at hmono hsucc hfail
        refine ⟨hwf'', by omega, ?_, ?_⟩
        · intro he j hj₁ hj₂
          by_cases hj : j = st.launches
          · subst hj
            exact hc
          · exact hsucc he j (by omega) hj₂
        · intro c hec
          rcases hfail c hec with ⟨hlt, hchk, hearlier⟩
          refine ⟨by omega, hchk, ?_⟩
          intro j hj₁ hj₂
          by_cases hj : j = st.launches
          · subst hj
            exact hc
          · exact hearlier j (by omega) hj₂
    · rw [if_neg hguard] at hml
      have he : hipError.hipSuccess = e ∧ st = st' := by
        have := Option.some.inj hml
        exact ⟨congrArg Prod.fst this, congrArg Prod.snd this⟩
      rcases he with ⟨he, hst⟩
      subst he
      subst hst
      refine ⟨hwf, le_rfl, ?_, ?_⟩
      · intro _ j hj₁ hj₂
        omega
      · intro c hc
        exact absurd hc.symm (by simp)

/-! ### The master description of a successful `sort_pairs` run -/

theorem size_le_fuel (size : Nat) : size ≤ 256 * 2 ^ size := by
  have h1 : size < 2 ^ size := Nat.lt_two_pow size
  have h2 : (0:Nat) < 2 ^ size := Nat.pos_pow_of_pos size (by norm_num)
  omega

theorem sort_pairs_ok {K V : Type} (keySize valueSize : Nat) (with_values : Bool)
    (input output₀ : List (K × V)) (size : Nat) (cmp : K → K → Bool)
    {rt : HipRuntime} (hrt : rtOk rt) (debug : Bool) (hsz : size ≤ 2 ^ 31) :
    result_status (sort_pairs keySize valueSize with_values true input output₀ size cmp rt debug)
        = some hipError.hipSuccess ∧
    result_output (sort_pairs keySize valueSize with_values true input output₀ size cmp rt debug)
        = merge_iter cmp size size 256 (block_sort_kernel 256 cmp input) ∧
    result_trace (sort_pairs keySize valueSize with_values true input output₀ size cmp rt debug)
        = KernelLaunch.sortLaunch (grid_val 256 size) 256 size ::
            (merge_trace 256 size (grid_val 256 size) size 256 false ++
              (if merge_passes size size 256 % 2 = 1 then
                [KernelLaunch.copyLaunch (grid_val 256 size) 256 size] else [])) := by
  have hfuel : size ≤ 256 * 2 ^ size := size_le_fuel size
  have hml := @merge_loop_eq_pure K V cmp rt debug 256 size
    (grid_val 256 size) hrt hsz size 256
    { temporary_store := false,
      keys_output := block_sort_kernel 256 cmp input, keys_buffer := [],
      launches := 1,
      trace := [KernelLaunch.sortLaunch (grid_val 256 size) 256 size] } hfuel
  have hts := merge_loop_pure_ts cmp 256 size (grid_val 256 size) size 256
    { temporary_store := false,
      keys_output := block_sort_kernel 256 cmp input, keys_buffer := [],
      launches := 1,
      trace := [KernelLaunch.sortLaunch (grid_val 256 size) 256 size] }
  have hauth := merge_loop_pure_auth cmp 256 size (grid_val 256 size) size 256
    { temporary_store := false,
      keys_output := block_sort_kernel 256 cmp input, keys_buffer := [],
      launches := 1,
      trace := [KernelLaunch.sortLaunch (grid_val 256 size) 256 size] }
  have htr := merge_loop_pure_trace cmp 256 size (grid_val 256 size) size 256
    { temporary_store := false,
      keys_output := block_sort_kernel 256 cmp input, keys_buffer := [],
      launches := 1,
      trace := [KernelLaunch.sortLaunch (grid_val 256 size) 256 size] }
  simp only [sort_pairs, sort_impl, if_neg (by simp : ¬ (true = false)),
    checkLaunch_ok hrt, hml]
  rcases Nat.mod_two_eq_zero_or_one (merge_passes size size 256) with hp | hp
  · rw [hp] at hts
    simp only [if_neg (by norm_num : ¬ (0 : Nat) = 1)] at hts
    simp only [hts, if_neg (by simp : ¬ (false = true)),
      result_status, result_output, result_trace, Option.map]
    rw [hp]
    unfold auth at hauth
    rw [hts] at hauth
    simp only [if_neg (by simp : ¬ (false = true))] at hauth
    simp at hauth htr
    refine ⟨trivial, ?_, ?_⟩
    · exact hauth
    · rw [htr]
      simp
  · rw [hp] at hts
    simp at hts
    simp only [hts, eq_self_iff_true, if_true, checkLaunch_ok hrt,
      result_status, result_output, result_trace, Option.map]
    rw [hp]
    unfold auth at hauth
    rw [hts] at hauth
    simp only [if_pos rfl] at hauth
    simp at hauth htr
    refine ⟨trivial, ?_, ?_⟩
    · show block_copy_kernel _ = _
      unfold block_copy_kernel
      exact hauth
    · rw [htr]
      simp

/-! ### Counting stages in a trace -/

theorem merge_trace_countP_isMerge (bs size grid fuel block : Nat) (ts : Bool) :
    (merge_trace bs size grid fuel block ts).countP (fun e => e.isMerge) =
      merge_passes size fuel block := by
  rw [← merge_trace_length bs size grid fuel block ts]
  rw [List.countP_eq_length]
  intro e he
  exact (merge_trace_mem bs size grid fuel block ts e he).1

theorem merge_trace_countP_isCopy (bs size grid fuel block : Nat) (ts : Bool) :
    (merge_trace bs size grid fuel block ts).countP (fun e => e.isCopy) = 0 := by
  rw [List.countP_eq_zero]
  intro e he
  have := (merge_trace_mem bs size grid fuel block ts e he).1
  cases e <;> simp_all [KernelLaunch.isMerge, KernelLaunch.isCopy]

theorem merge_trace_countP_isSort (bs size grid fuel block : Nat) (ts : Bool) :
    (merge_trace bs size grid fuel block ts).countP (fun e => e.isSort) = 0 := by
  rw [List.countP_eq_zero]
  intro e he
  have := (merge_trace_mem bs size grid fuel block ts e he).1
  cases e <;> simp_all [KernelLaunch.isMerge, KernelLaunch.isSort]

/-! ### The grid size formula -/

theorem grid_val_256 {size : Nat} (hsize : size < 2 ^ 64) :
    grid_val 256 size = ((size + 255) / 256) % 2 ^ 32 := by
  unfold grid_val
  have h1 : size + 256 - 1 = size + 255 := by omega
  rw [h1]
  by_cases h : size + 255 < 2 ^ 64
  · rw [Nat.mod_eq_of_lt h]
  · have hrle : size + 255 - 2 ^ 64 < 256 := by omega
    have hsplit : size + 255 = 2 ^ 64 + (size + 255 - 2 ^ 64) := by omega
    generalize hgr : size + 255 - 2 ^ 64 = r at hrle hsplit
    have hr64 : r < 2 ^ 64 := by omega
    rw [hsplit, Nat.add_mod_left, Nat.mod_eq_of_lt hr64, Nat.div_eq_of_lt hrle]
    have h2 : (2 ^ 64 + r) / 256 = 2 ^ 56 + r / 256 := by
      rw [show (2:Nat) ^ 64 = 256 * 2 ^ 56 by norm_num,
        Nat.mul_add_div (by norm_num : (0:Nat) < 256)]
    rw [h2, Nat.div_eq_of_lt hrle]
    rw [Nat.add_zero, show (2:Nat) ^ 56 = 2 ^ 32 * 2 ^ 24 by norm_num,
      Nat.mul_mod_right]
    rfl

/-! ### Trace entries all carry the launch grid size -/

theorem merge_loop_trace_grid {cmp : K → K → Bool} {rt : HipRuntime}
    {debug : Bool} {bs size grid : Nat} :
    ∀ (fuel block : Nat) (st : LoopState K V) (e : hipError) (st' : LoopState K V),
      merge_loop cmp rt debug bs size grid fuel block st = some (e, st') →
      ∀ x ∈ st'.trace, x ∈ st.trace ∨ x.grid = grid := by
  intro fuel
  induction fuel with
  | zero =>
    intro block st e st' hml x hx
    rw [merge_loop] at hml
    by_cases hguard : block < size
    · rw [if_pos hguard] at hml
      exact absurd hml (by simp)
    · rw [if_neg hguard] at hml
      have hst : st = st' := congrArg Prod.snd (Option.some.inj hml)
      subst hst
      exact Or.inl hx
  | succ fuel ih =>
    intro block st e st' hml x hx
    rw [merge_loop] at hml
    by_cases hguard : block < size
    · rw [if_pos hguard] at hml
      cases hc : checkLaunch rt debug st.launches with
      | hipFailure c =>
        rw [hc] at hml
        have hst : merge_step cmp bs size grid block st = st' :=
          congrArg Prod.snd (Option.some.inj hml)
        subst hst
        rw [merge_step_trace] at hx
        rcases List.mem_append.mp hx with hx | hx
        · exact Or.inl hx
        · right
          rw [List.mem_singleton.mp hx]
          rfl
      | hipSuccess =>
        rw [hc] at hml
        rcases ih _ _ e st' hml x hx with hmem | hgrid
        · rw [merge_step_trace] at hmem
          rcases List.mem_append.mp hmem with hmem | hmem
          · exact Or.inl hmem
          · right
            rw [List.mem_singleton.mp hmem]
            rfl
        · exact Or.inr hgrid
    · rw [if_neg hguard] at hml
      have hst : st = st' := congrArg Prod.snd (Option.some.inj hml)
      subst hst
      exact Or.inl hx

/-! ### Fail-fast at the level of `sort_impl` -/

theorem checks_ok_iff {rt : HipRuntime} {debug : Bool} {n : Nat} :
    checks_ok rt debug n = true ↔
      ∀ j < n, checkLaunch rt debug j = hipError.hipSuccess := by
  unfold checks_ok
  rw [List.all_eq_true]
  constructor
  · intro h j hj
    have := h j (List.mem_range.mpr hj)
    exact eq_of_beq this
  · intro h j hj
    have := h j (List.mem_range.mp hj)
    rw [this]
    rfl

theorem sort_impl_fail_fast {K V : Type} {keySize valueSize : Nat}
    {with_values : Bool} {input output₀ : List (K × V)} {size : Nat}
    {cmp : K → K → Bool} {rt : HipRuntime} {debug : Bool}
    (res : SortResult K V)
    (hres : sort_impl 256 with_values keySize valueSize true input output₀ size
      cmp rt debug = some res) :
    1 ≤ res.trace.length ∧
    (res.status = hipError.hipSuccess →
      ∀ j < res.trace.length, checkLaunch rt debug j = hipError.hipSuccess) ∧
    (∀ c, res.status = hipError.hipFailure c →
      checkLaunch rt debug (res.trace.length - 1) = hipError.hipFailure c ∧
      ∀ j < res.trace.length - 1, checkLaunch rt debug j = hipError.hipSuccess) := by
  simp only [sort_impl, if_neg (by simp : ¬ (true = false))] at hres
  cases hc0 : checkLaunch rt debug 0 with
  | hipFailure c =>
    rw [hc0] at hres
    have hr : _ = res := Option.some.inj hres
    subst hr
    refine ⟨by simp, ?_, ?_⟩
    · intro habs
      exact absurd habs (by simp)
    · intro c' hc'
      have hcc : c = c' := hipError.hipFailure.inj hc'
      subst hcc
      constructor
      · simpa using hc0
      · intro j hj
        simp at hj
  | hipSuccess =>
    rw [hc0] at hres
    cases hml : merge_loop cmp rt debug 256 size (grid_val 256 size) size 256
        { temporary_store := false,
          keys_output := block_sort_kernel 256 cmp input, keys_buffer := [],
          launches := 1,
          trace := [KernelLaunch.sortLaunch (grid_val 256 size) 256 size] } with
    | none =>
      rw [hml] at hres
      exact absurd hres (by simp)
    | some est =>
      rw [hml] at hres
      rcases est with ⟨e, st⟩
      have hloop := merge_loop_status size 256
        { temporary_store := false,
          keys_output := block_sort_kernel 256 cmp input, keys_buffer := [],
          launches := 1,
          trace := [KernelLaunch.sortLaunch (grid_val 256 size) 256 size] }
        e st rfl hml
      rcases hloop with ⟨hwf, hmono, hsucc, hfail⟩
      simp only at hmono hsucc hfail
      cases e with
      | hipFailure c =>
        have hr : (
            { status := hipError.hipFailure c, storage_size := none,
              keys_output := st.keys_output, keys_buffer := st.keys_buffer,
              trace := st.trace } : SortResult K V) = res := Option.some.inj hres
        subst hr
        dsimp only
        rcases hfail c rfl with ⟨hlt, hchk, hearlier⟩
        refine ⟨by omega, ?_, ?_⟩
        · intro habs
          exact absurd habs (by simp)
        · intro c' hc'
          have hcc : c = c' := hipError.hipFailure.inj hc'
          subst hcc
          rw [hwf]
          refine ⟨hchk, ?_⟩
          intro j hj
          by_cases hj0 : j = 0
          · subst hj0
            exact hc0
          · exact hearlier j (by omega) hj
      | hipSuccess =>
        dsimp only at hres
        by_cases hts : st.temporary_store
        · rw [if_pos hts] at hres
          cases hc2 : checkLaunch rt debug st.launches with
          | hipFailure c =>
            rw [hc2] at hres
            have hr : (
                { status := hipError.hipFailure c, storage_size := none,
                  keys_output := block_copy_kernel st.keys_buffer,
                  keys_buffer := st.keys_buffer,
                  trace := st.trace ++
                    [KernelLaunch.copyLaunch (grid_val 256 size) 256 size] } :
                SortResult K V) = res := Option.some.inj hres
            subst hr
            dsimp only
            rw [List.length_append, hwf]
            refine ⟨by simp, ?_, ?_⟩
            · intro habs
              exact absurd habs (by simp)
            · intro c' hc'
              have hcc : c = c' := hipError.hipFailure.inj hc'
              subst hcc
              simp only [List.length_singleton]
              have hL : st.launches + 1 - 1 = st.launches := by omega
              rw [hL]
              refine ⟨hc2, ?_⟩
              intro j hj
              by_cases hj0 : j = 0
              · subst hj0
                exact hc0
              · exact hsucc rfl j (by omega) (by omega)
          | hipSuccess =>
            rw [hc2] at hres
            have hr : (
                { status := hipError.hipSuccess, storage_size := none,
                  keys_output := block_copy_kernel st.keys_buffer,
                  keys_buffer := st.keys_buffer,
                  trace := st.trace ++
                    [KernelLaunch.copyLaunch (grid_val 256 size) 256 size] } :
                SortResult K V) = res := Option.some.inj hres
            subst hr
            dsimp only
            rw [List.length_append, hwf]
            refine ⟨by simp, ?_, ?_⟩
            · intro _ j hj
              simp only [List.length_singleton] at hj
              by_cases hj0 : j = 0
              · subst hj0
                exact hc0
              · by_cases hjl : j = st.launches
                · subst hjl
                  exact hc2
                · exact hsucc rfl j (by omega) (by omega)
            · intro c' hc'
              exact absurd hc'.symm (by simp)
        · rw [if_neg hts] at hres
          have hr : (
              { status := hipError.hipSuccess, storage_size := none,
                keys_output := st.keys_output, keys_buffer := st.keys_buffer,
                trace := st.trace } : SortResult K V) = res := Option.some.inj hres
          subst hr
          dsimp only
          rw [hwf]
          refine ⟨by omega, ?_, ?_⟩
          · intro _ j hj
            by_cases hj0 : j = 0
            · subst hj0
              exact hc0
            · exact hsucc rfl j (by omega) hj
          · intro c' hc'
            exact absurd hc'.symm (by simp)

/-! ### Facts about `align_size` -/

theorem align_size_of_small {n : Nat} (h : n + 255 < 2 ^ 64) :
    align_size n = ((n + 255) / 256) * 256 := by
  unfold align_size
  rw [Nat.mod_eq_of_lt h]

theorem align_size_eq_zero_iff {n : Nat} (h : n + 255 < 2 ^ 64) :
    align_size n = 0 ↔ n = 0 := by
  rw [align_size_of_small h]
  constructor
  · intro hz
    rcases Nat.mul_eq_zero.mp hz with hz | hz
    · have : n + 255 < 256 := by
        by_contra hle
        push_neg at hle
        have := Nat.div_le_div_right (c := 256) hle
        rw [Nat.div_self (by norm_num : (0:Nat) < 256)] at this
        omega
      omega
    · exact absurd hz (by norm_num)
  · intro hz
    subst hz
    norm_num

/-! ### Claim theorems -/

/-- C2 (amended): a capacity query (null scratch pointer) returns success,
launches no kernels, leaves the output untouched, and writes
`storage_size` as the source computes it in `size_t` arithmetic: the
byte counts are `align_size` of the `size * sizeof` products reduced
modulo `2 ^ 64` and their sum is reduced modulo `2 ^ 64`; when the
computed total is zero `storage_size` is forced to 4.  Whenever the
products and padded sums stay below `2 ^ 64` — in particular for every
realistic size — this equals the claimed formula
`align(size * sizeof(key)) (+ align(size * sizeof(value)))`, and the
total is zero exactly for `size = 0`, where the constant 4 is returned. -/
theorem capacity_query_spec {K V : Type} (keySize valueSize size : Nat)
    (with_values : Bool) (input output₀ : List (K × V)) (cmp : K → K → Bool)
    (rt : HipRuntime) (debug : Bool) :
    result_status (sort_pairs keySize valueSize with_values false input output₀
        size cmp rt debug) = some hipError.hipSuccess ∧
    result_trace (sort_pairs keySize valueSize with_values false input output₀
        size cmp rt debug) = [] ∧
    result_output (sort_pairs keySize valueSize with_values false input output₀
        size cmp rt debug) = output₀ ∧
    (size = 0 → result_storage (sort_pairs keySize valueSize with_values false input
        output₀ size cmp rt debug) = some 4) ∧
    (0 < keySize → size * keySize + 255 < 2 ^ 64 →
      (with_values = false →
        result_storage (sort_pairs keySize valueSize with_values false input output₀
            size cmp rt debug) =
          some (if size = 0 then 4 else align_size (size * keySize))) ∧
      (with_values = true → size * valueSize + 255 < 2 ^ 64 →
        align_size (size * keySize) + align_size (size * valueSize) < 2 ^ 64 →
        result_storage (sort_pairs keySize valueSize with_values false input output₀
            size cmp rt debug) =
          some (if size = 0 then 4 else
            align_size (size * keySize) + align_size (size * valueSize)))) := by
  refine ⟨rfl, rfl, rfl, ?_, ?_⟩
  · intro h0
    subst h0
    simp only [sort_pairs, sort_impl, if_pos rfl, result_storage, Nat.zero_mul,
      Nat.zero_mod, show align_size 0 = 0 from rfl]
    cases with_values <;> simp
  · intro hk hov
    have hmod : (size * keySize) % 2 ^ 64 = size * keySize :=
      Nat.mod_eq_of_lt (by omega)
    constructor
    · intro hwv
      subst hwv
      have hcond : align_size (size * keySize) = 0 ↔ size = 0 := by
        rw [align_size_eq_zero_iff hov]
        constructor
        · intro h
          rcases Nat.mul_eq_zero.mp h with h | h
          · exact h
          · omega
        · intro h
          subst h
          exact Nat.zero_mul keySize
      simp only [sort_pairs, sort_impl, eq_self_iff_true, if_true, result_storage,
        Bool.false_eq_true, if_false, hmod, hcond]
    · intro hwv hv hsum
      subst hwv
      have hmodv : (size * valueSize) % 2 ^ 64 = size * valueSize :=
        Nat.mod_eq_of_lt (by omega)
      have hcond : align_size (size * keySize) + align_size (size * valueSize) = 0
          ↔ size = 0 := by
        constructor
        · intro h
          have h1 : align_size (size * keySize) = 0 := by omega
          rw [align_size_eq_zero_iff hov] at h1
          rcases Nat.mul_eq_zero.mp h1 with h1 | h1
          · exact h1
          · omega
        · intro h
          subst h
          rw [Nat.zero_mul, Nat.zero_mul]
          rw [show align_size 0 = 0 from rfl]
      simp only [sort_pairs, sort_impl, eq_self_iff_true, if_true, result_storage,
        hmod, hmodv]
      rw [Nat.mod_eq_of_lt hsum]
      simp only [hcond]

/-- C2 witness: instantiating the amended capacity-query theorem at
`size = 1000`, 8-byte keys and 8-byte values. -/
theorem capacity_query_spec_witness :
    (0 : Nat) < 8 ∧ (1000 * 8 + 255 : Nat) < 2 ^ 64 ∧
    result_storage (sort_pairs 8 8 true false ([] : List (Nat × Nat)) [] 1000
        cmpNat rtAllOk false) =
      some (if (1000 : Nat) = 0 then 4 else
        align_size (1000 * 8) + align_size (1000 * 8)) := by
  refine ⟨by norm_num, by norm_num, ?_⟩
  exact ((capacity_query_spec 8 8 1000 true [] [] cmpNat rtAllOk false).2.2.2.2
    (by norm_num) (by norm_num)).2 rfl (by norm_num) (by decide)

/-- C2 counterexample: at `size = 2 ^ 62` with 4-byte keys the product
`size * sizeof(key)` wraps to 0 in `size_t`, so the call stores
`storage_size = 4` even though `size ≠ 0`, while the claimed value
`align(size * sizeof(key))` is at least `size * sizeof(key) = 2 ^ 64`. -/
theorem capacity_query_overflow :
    result_storage (sort 4 false ([] : List Nat) [] (2 ^ 62) cmpNat rtAllOk false)
        = some 4 ∧
    (2 ^ 62 : Nat) ≠ 0 ∧ (4 : Nat) < 2 ^ 62 * 4 := by
  refine ⟨rfl, by norm_num, by norm_num⟩

/-- C4: calling sort with `size == 0` and a non-null scratch buffer
returns success against a failure-free runtime, performs no merge pass
and no copy-back, and the output sequence (of length 0) is untouched. -/
theorem size_zero_noop {K V : Type} (keySize valueSize : Nat) (with_values : Bool)
    (output₀ : List (K × V)) (cmp : K → K → Bool) {rt : HipRuntime}
    (hrt : rtOk rt) (debug : Bool) :
    result_status (sort_pairs keySize valueSize with_values true [] output₀ 0
        cmp rt debug) = some hipError.hipSuccess ∧
    result_output (sort_pairs keySize valueSize with_values true [] output₀ 0
        cmp rt debug) = [] := by
  have h := sort_pairs_ok keySize valueSize with_values [] output₀ 0 cmp hrt debug
    (by norm_num)
  refine ⟨h.1, ?_⟩
  rw [h.2.1]
  rfl

/-- C4 witness: the size-zero no-op at concrete types. -/
theorem size_zero_noop_witness :
    result_status (sort_pairs 8 8 true true ([] : List (Nat × Nat)) [] 0
        cmpNat rtAllOk false) = some hipError.hipSuccess ∧
    result_output (sort_pairs 8 8 true true ([] : List (Nat × Nat)) [] 0
        cmpNat rtAllOk false) = [] :=
  size_zero_noop 8 8 true [] cmpNat rtAllOk_ok false

theorem sort_pairs_correct_aux {K V : Type} (keySize valueSize : Nat)
    (with_values : Bool) (input output₀ : List (K × V)) (size : Nat)
    {cmp : K → K → Bool} (hswo : SWO cmp) {rt : HipRuntime} (hrt : rtOk rt)
    (debug : Bool) (hlen : input.length = size) (hsz : size ≤ 2 ^ 31) :
    result_status (sort_pairs keySize valueSize with_values true input output₀
        size cmp rt debug) = some hipError.hipSuccess ∧
    (result_output (sort_pairs keySize valueSize with_values true input output₀
        size cmp rt debug)).Perm input ∧
    adjacent_ordered cmp (result_output (sort_pairs keySize valueSize with_values
        true input output₀ size cmp rt debug)) = true := by
  have h := sort_pairs_ok keySize valueSize with_values input output₀ size cmp
    hrt debug hsz
  refine ⟨h.1, ?_, ?_⟩
  · rw [h.2.1]
    exact (merge_iter_perm cmp size size 256 _).trans (block_sort_perm 256 cmp input)
  · rw [h.2.1]
    refine adjacent_of_sorted ?_
    refine merge_iter_sorted hswo hsz size 256 _ (by norm_num) (size_le_fuel size)
      ?_ (block_sort_runs hswo (by norm_num) input)
    rw [(block_sort_perm 256 cmp input).length_eq]
    exact hlen

/-- C1 (amended): for every size of at most `2 ^ 31`, every key/value
input of that length and every strict-weak-ordering predicate, a sort call
with a (sufficient, by the capacity contract) scratch buffer against a
failure-free runtime succeeds, and the output is a permutation of the
input pairs (so the multiset of keys is preserved and every value stays
paired with its key) with no adjacent pair violating the predicate.
Beyond `2 ^ 31` the source merge loop never terminates (its run width is
an `unsigned int` that wraps to 0), so the unrestricted claim fails. -/
theorem sort_pairs_sorted_permutation {K V : Type} (keySize valueSize : Nat)
    (with_values : Bool) (input output₀ : List (K × V)) (size : Nat)
    (cmp : K → K → Bool) (hswo : SWO cmp) {rt : HipRuntime} (hrt : rtOk rt)
    (debug : Bool) (hlen : input.length = size) (hsz : size ≤ 2 ^ 31) :
    result_status (sort_pairs keySize valueSize with_values true input output₀
        size cmp rt debug) = some hipError.hipSuccess ∧
    (result_output (sort_pairs keySize valueSize with_values true input output₀
        size cmp rt debug)).Perm input ∧
    adjacent_ordered cmp (result_output (sort_pairs keySize valueSize with_values
        true input output₀ size cmp rt debug)) = true :=
  sort_pairs_correct_aux keySize valueSize with_values input output₀ size hswo
    hrt debug hlen hsz

/-- C1 witness: the specification's own example `[5,3,1,4,2]` with paired
values `[0,1,2,3,4]`. -/
theorem sort_pairs_sorted_permutation_witness :
    result_status (sort_pairs 8 8 true true
        [((5:Nat),(0:Nat)), (3,1), (1,2), (4,3), (2,4)] [] 5 cmpNat rtAllOk false)
      = some hipError.hipSuccess ∧
    (result_output (sort_pairs 8 8 true true
        [((5:Nat),(0:Nat)), (3,1), (1,2), (4,3), (2,4)] [] 5 cmpNat rtAllOk false)).Perm
      [((5:Nat),(0:Nat)), (3,1), (1,2), (4,3), (2,4)] ∧
    adjacent_ordered cmpNat (result_output (sort_pairs 8 8 true true
        [((5:Nat),(0:Nat)), (3,1), (1,2), (4,3), (2,4)] [] 5 cmpNat rtAllOk false))
      = true :=
  sort_pairs_sorted_permutation 8 8 true
    [((5:Nat),(0:Nat)), (3,1), (1,2), (4,3), (2,4)] [] 5 cmpNat cmpNat_swo
    rtAllOk_ok false (by decide) (by decide)

/-- C1 counterexample: at `size = 2 ^ 31 + 1` the merge loop's run width
(an `unsigned int`) doubles from 256 to `2 ^ 31` and then wraps to 0, so
the guard `block < size` holds forever and the call never returns (`none`
for every fuel by `merge_loop_diverges`): no sorted permutation is
produced, refuting the claim for unrestricted sizes. -/
theorem sort_pairs_unbounded_size_counterexample :
    sort_pairs 4 4 true true (List.replicate (2 ^ 31 + 1) ((0:Nat), (0:Nat))) []
        (2 ^ 31 + 1) cmpNat rtAllOk false = none :=
  sort_impl_diverges 4 4 true (List.replicate (2 ^ 31 + 1) ((0:Nat), (0:Nat))) []
    (2 ^ 31 + 1) cmpNat rtAllOk_ok false (by norm_num)

/-- C9 (amended): for every already-sorted input (no adjacent pair
violates the predicate) of length at most `2 ^ 31`, the sort call returns
success and the output equals the input exactly, keys and paired values
alike.  Beyond `2 ^ 31` the source merge loop never terminates, so the
unrestricted claim fails. -/
theorem sort_pairs_idempotent {K V : Type} (keySize valueSize : Nat)
    (with_values : Bool) (input output₀ : List (K × V)) (size : Nat)
    (cmp : K → K → Bool) (hswo : SWO cmp)
    (hsorted : adjacent_ordered cmp input = true) {rt : HipRuntime}
    (hrt : rtOk rt) (debug : Bool) (hlen : input.length = size)
    (hsz : size ≤ 2 ^ 31) :
    result_status (sort_pairs keySize valueSize with_values true input output₀
        size cmp rt debug) = some hipError.hipSuccess ∧
    result_output (sort_pairs keySize valueSize with_values true input output₀
        size cmp rt debug) = input := by
  have h := sort_pairs_ok keySize valueSize with_values input output₀ size cmp
    hrt debug hsz
  have hs : List.Sorted (keyLe cmp) input := sorted_of_adjacent hswo hsorted
  refine ⟨h.1, ?_⟩
  rw [h.2.1, block_sort_of_sorted hs, merge_iter_of_sorted hs]

/-- C9 witness: a concrete already-sorted input is returned unchanged. -/
theorem sort_pairs_idempotent_witness :
    adjacent_ordered cmpNat [((1:Nat),(9:Nat)), (2,8), (2,7), (3,6)] = true ∧
    result_status (sort_pairs 8 8 true true
        [((1:Nat),(9:Nat)), (2,8), (2,7), (3,6)] [] 4 cmpNat rtAllOk false)
      = some hipError.hipSuccess ∧
    result_output (sort_pairs 8 8 true true
        [((1:Nat),(9:Nat)), (2,8), (2,7), (3,6)] [] 4 cmpNat rtAllOk false)
      = [((1:Nat),(9:Nat)), (2,8), (2,7), (3,6)] :=
  ⟨by decide,
    sort_pairs_idempotent 8 8 true [((1:Nat),(9:Nat)), (2,8), (2,7), (3,6)] [] 4
      cmpNat cmpNat_swo (by decide) rtAllOk_ok false (by decide) (by decide)⟩

theorem adjacent_ordered_replicate {K V : Type} {cmp : K → K → Bool}
    {x : K × V} (hx : cmp x.1 x.1 = false) :
    ∀ n, adjacent_ordered cmp (List.replicate n x) = true := by
  intro n
  induction n with
  | zero => rfl
  | succ m ih =>
    rw [List.replicate_succ]
    cases m with
    | zero => rfl
    | succ k =>
      rw [List.replicate_succ]
      show (!(cmp x.1 x.1) && adjacent_ordered cmp (x :: List.replicate k x)) = true
      rw [hx]
      rw [← List.replicate_succ]
      rw [ih]
      rfl

/-- C9 counterexample: an already-sorted sequence of `2 ^ 31 + 1` equal
keys is not returned unchanged — the call never returns at all, because
the merge loop's `unsigned int` run width wraps to 0 and the loop guard
holds forever. -/
theorem sort_pairs_idempotent_counterexample :
    adjacent_ordered cmpNat (List.replicate (2 ^ 31 + 1) ((1:Nat), (1:Nat))) = true ∧
    sort_pairs 4 4 true true (List.replicate (2 ^ 31 + 1) ((1:Nat), (1:Nat))) []
        (2 ^ 31 + 1) cmpNat rtAllOk false = none := by
  constructor
  · exact adjacent_ordered_replicate (by decide) _
  · exact sort_impl_diverges 4 4 true (List.replicate (2 ^ 31 + 1) ((1:Nat), (1:Nat)))
      [] (2 ^ 31 + 1) cmpNat rtAllOk_ok false (by norm_num)

/-- C5: after a successful run (failure-free runtime, size at most
`2 ^ 31` so the call returns), the trace contains a copy-back launch
exactly when the number of merge passes is odd (the count of copy-back
launches equals the parity of the count of merge launches), and the
caller's output buffer holds the authoritative data: a permutation of the
input with no adjacent pair violating the predicate. -/
theorem copy_back_parity {K V : Type} (keySize valueSize : Nat)
    (with_values : Bool) (input output₀ : List (K × V)) (size : Nat)
    (cmp : K → K → Bool) (hswo : SWO cmp) {rt : HipRuntime} (hrt : rtOk rt)
    (debug : Bool) (hlen : input.length = size) (hsz : size ≤ 2 ^ 31) :
    (result_trace (sort_pairs keySize valueSize with_values true input output₀
        size cmp rt debug)).countP (fun e => e.isCopy) =
      (result_trace (sort_pairs keySize valueSize with_values true input output₀
        size cmp rt debug)).countP (fun e => e.isMerge) % 2 ∧
    result_status (sort_pairs keySize valueSize with_values true input output₀
        size cmp rt debug) = some hipError.hipSuccess ∧
    (result_output (sort_pairs keySize valueSize with_values true input output₀
        size cmp rt debug)).Perm input ∧
    adjacent_ordered cmp (result_output (sort_pairs keySize valueSize with_values
        true input output₀ size cmp rt debug)) = true := by
  have h := sort_pairs_ok keySize valueSize with_values input output₀ size cmp
    hrt debug hsz
  have haux := sort_pairs_correct_aux keySize valueSize with_values input output₀
    size hswo hrt debug hlen hsz
  refine ⟨?_, haux.1, haux.2.1, haux.2.2⟩
  rw [h.2.2]
  rw [List.countP_cons, List.countP_cons, List.countP_append, List.countP_append]
  rw [merge_trace_countP_isMerge, merge_trace_countP_isCopy]
  rcases Nat.mod_two_eq_zero_or_one (merge_passes size size 256) with hp | hp <;>
    simp [hp, KernelLaunch.isMerge, KernelLaunch.isCopy, List.countP_cons]

set_option maxRecDepth 4000 in
/-- C5 witness: at `size = 257` exactly one merge pass runs, so the
copy-back launch is present, and the output is sorted. -/
theorem copy_back_parity_witness :
    (result_trace (sort_pairs 8 8 true true
        (List.replicate 257 ((0:Nat),(0:Nat))) [] 257 cmpNat rtAllOk false)).countP
        (fun e => e.isCopy) =
      (result_trace (sort_pairs 8 8 true true
        (List.replicate 257 ((0:Nat),(0:Nat))) [] 257 cmpNat rtAllOk false)).countP
        (fun e => e.isMerge) % 2 ∧
    result_status (sort_pairs 8 8 true true
        (List.replicate 257 ((0:Nat),(0:Nat))) [] 257 cmpNat rtAllOk false)
      = some hipError.hipSuccess ∧
    (result_output (sort_pairs 8 8 true true
        (List.replicate 257 ((0:Nat),(0:Nat))) [] 257 cmpNat rtAllOk false)).Perm
      (List.replicate 257 ((0:Nat),(0:Nat))) ∧
    adjacent_ordered cmpNat (result_output (sort_pairs 8 8 true true
        (List.replicate 257 ((0:Nat),(0:Nat))) [] 257 cmpNat rtAllOk false)) = true :=
  copy_back_parity 8 8 true (List.replicate 257 ((0:Nat),(0:Nat))) [] 257 cmpNat
    cmpNat_swo rtAllOk_ok false (by decide) (by decide)

/-- C7: with the fixed `block_size = 256` of the public entry points:
at `size = 256` the run consists of exactly one group-sort launch, zero
merge passes and no copy-back; at `size = 257` exactly one merge pass is
performed; at `size = 1` the call succeeds and the output equals the
input. -/
theorem boundary_sizes {K V : Type} (keySize valueSize : Nat)
    (with_values : Bool) (cmp : K → K → Bool) {rt : HipRuntime}
    (hrt : rtOk rt) (debug : Bool) :
    (∀ (input output₀ : List (K × V)),
      (result_trace (sort_pairs keySize valueSize with_values true input output₀
          256 cmp rt debug)).countP (fun e => e.isSort) = 1 ∧
      (result_trace (sort_pairs keySize valueSize with_values true input output₀
          256 cmp rt debug)).countP (fun e => e.isMerge) = 0 ∧
      (result_trace (sort_pairs keySize valueSize with_values true input output₀
          256 cmp rt debug)).countP (fun e => e.isCopy) = 0) ∧
    (∀ (input output₀ : List (K × V)),
      (result_trace (sort_pairs keySize valueSize with_values true input output₀
          257 cmp rt debug)).countP (fun e => e.isMerge) = 1) ∧
    (∀ (x : K × V) (output₀ : List (K × V)),
      result_status (sort_pairs keySize valueSize with_values true [x] output₀
          1 cmp rt debug) = some hipError.hipSuccess ∧
      result_output (sort_pairs keySize valueSize with_values true [x] output₀
          1 cmp rt debug) = [x]) := by
  refine ⟨?_, ?_, ?_⟩
  · intro input output₀
    have h := sort_pairs_ok keySize valueSize with_values input output₀ 256 cmp
      hrt debug (by norm_num)
    rw [h.2.2]
    refine ⟨by decide, by decide, by decide⟩
  · intro input output₀
    have h := sort_pairs_ok keySize valueSize with_values input output₀ 257 cmp
      hrt debug (by norm_num)
    rw [h.2.2]
    decide
  · intro x output₀
    have h := sort_pairs_ok keySize valueSize with_values [x] output₀ 1 cmp
      hrt debug (by norm_num)
    refine ⟨h.1, ?_⟩
    rw [h.2.1]
    rfl

/-- C7 witness: the three boundary scenarios at concrete inputs. -/
theorem boundary_sizes_witness :
    ((result_trace (sort_pairs 8 8 true true
        (List.replicate 256 ((0:Nat),(0:Nat))) [] 256 cmpNat rtAllOk false)).countP
        (fun e => e.isSort) = 1 ∧
      (result_trace (sort_pairs 8 8 true true
        (List.replicate 256 ((0:Nat),(0:Nat))) [] 256 cmpNat rtAllOk false)).countP
        (fun e => e.isMerge) = 0 ∧
      (result_trace (sort_pairs 8 8 true true
        (List.replicate 256 ((0:Nat),(0:Nat))) [] 256 cmpNat rtAllOk false)).countP
        (fun e => e.isCopy) = 0) ∧
    (result_trace (sort_pairs 8 8 true true
        (List.replicate 257 ((0:Nat),(0:Nat))) [] 257 cmpNat rtAllOk false)).countP
        (fun e => e.isMerge) = 1 ∧
    (result_status (sort_pairs 8 8 true true [((3:Nat),(4:Nat))] [] 1 cmpNat
        rtAllOk false) = some hipError.hipSuccess ∧
      result_output (sort_pairs 8 8 true true [((3:Nat),(4:Nat))] [] 1 cmpNat
        rtAllOk false) = [((3:Nat),(4:Nat))]) :=
  ⟨(boundary_sizes 8 8 true cmpNat rtAllOk_ok false).1
      (List.replicate 256 ((0:Nat),(0:Nat))) [],
    (boundary_sizes 8 8 true cmpNat rtAllOk_ok false).2.1
      (List.replicate 257 ((0:Nat),(0:Nat))) [],
    (boundary_sizes 8 8 true cmpNat rtAllOk_ok false).2.2 ((3:Nat),(4:Nat)) []⟩

/-- C3 (the loop as written does not terminate for every size): for every
size of at most `2 ^ 31` the loop terminates via its guard and the number
of merge passes equals `ceil(log2(ceil(size / 256)))` when
`size > 256` and 0 otherwise, as the claim states; but at
`size = 2 ^ 31 + 1` the loop never exits — `block` is an `unsigned int`
whose doubling wraps `2 ^ 31 → 0` and the guard `block < size` then holds
forever, so no amount of fuel makes the loop return.  The claim's
universally-quantified termination statement is the spec's clear intent
and the 32-bit loop variable is the code's slip. -/
theorem merge_pass_count_and_divergence :
    (∀ (K V : Type) (keySize valueSize : Nat) (with_values : Bool)
      (input output₀ : List (K × V)) (size : Nat) (cmp : K → K → Bool)
      (rt : HipRuntime), rtOk rt → ∀ (debug : Bool), size ≤ 2 ^ 31 →
      (result_trace (sort_pairs keySize valueSize with_values true input output₀
          size cmp rt debug)).countP (fun e => e.isMerge) =
        if 256 < size then Nat.clog 2 ((size + 255) / 256) else 0) ∧
    (∀ (grid fuel : Nat) (st : LoopState Nat Nat),
      merge_loop cmpNat rtAllOk false 256 (2 ^ 31 + 1) grid fuel 256 st = none) := by
  constructor
  · intro K V keySize valueSize with_values input output₀ size cmp rt hrt debug hsz
    have h := sort_pairs_ok keySize valueSize with_values input output₀ size cmp
      hrt debug hsz
    rw [h.2.2]
    rw [List.countP_cons, List.countP_append, merge_trace_countP_isMerge]
    have hcopy : (if merge_passes size size 256 % 2 = 1 then
        [KernelLaunch.copyLaunch (grid_val 256 size) 256 size] else
          ([] : List KernelLaunch)).countP (fun e => e.isMerge) = 0 := by
      rcases Nat.mod_two_eq_zero_or_one (merge_passes size size 256) with hp | hp <;>
        simp [hp, KernelLaunch.isMerge]
    rw [hcopy]
    simp only [KernelLaunch.isMerge, Bool.false_eq_true, if_false, Nat.add_zero]
    by_cases hbig : 256 < size
    · rw [if_pos hbig]
      exact merge_passes_eq_clog hsz
    · rw [if_neg hbig]
      exact merge_passes_zero hbig size
  · intro grid fuel st
    exact merge_loop_diverges rtAllOk_ok (by norm_num) fuel 256 st
      (Or.inr ⟨8, by norm_num, by norm_num⟩)

/-- C3 witness: the pass-count formula instantiated at `size = 300`,
where one merge pass runs, and the divergence statement at fuel 5. -/
theorem merge_pass_count_and_divergence_witness :
    (result_trace (sort_pairs 8 8 true true
        (List.replicate 300 ((0:Nat),(0:Nat))) [] 300 cmpNat rtAllOk false)).countP
        (fun e => e.isMerge) =
      (if 256 < 300 then Nat.clog 2 ((300 + 255) / 256) else 0) ∧
    merge_loop cmpNat rtAllOk false 256 (2 ^ 31 + 1) 5 5 256 stNat0 = none :=
  ⟨merge_pass_count_and_divergence.1 Nat Nat 8 8 true
      (List.replicate 300 ((0:Nat),(0:Nat))) [] 300 cmpNat rtAllOk rtAllOk_ok
      false (by norm_num),
    merge_pass_count_and_divergence.2 5 5 stNat0⟩

theorem sort_impl_trace_grid {K V : Type} {keySize valueSize : Nat}
    {with_values temporary_storage : Bool} {input output₀ : List (K × V)}
    {size : Nat} {cmp : K → K → Bool} {rt : HipRuntime} {debug : Bool}
    (res : SortResult K V)
    (hres : sort_impl 256 with_values keySize valueSize temporary_storage input
      output₀ size cmp rt debug = some res) :
    ∀ x ∈ res.trace, x.grid = grid_val 256 size := by
  by_cases hts : temporary_storage = false
  · simp only [sort_impl, if_pos hts] at hres
    have hr : _ = res := Option.some.inj hres
    subst hr
    intro x hx
    simp at hx
  · simp only [sort_impl, if_neg hts] at hres
    cases hc0 : checkLaunch rt debug 0 with
    | hipFailure c =>
      rw [hc0] at hres
      have hr : _ = res := Option.some.inj hres
      subst hr
      intro x hx
      rw [List.mem_singleton.mp hx]
      rfl
    | hipSuccess =>
      rw [hc0] at hres
      cases hml : merge_loop cmp rt debug 256 size (grid_val 256 size) size 256
          { temporary_store := false,
            keys_output := block_sort_kernel 256 cmp input, keys_buffer := [],
            launches := 1,
            trace := [KernelLaunch.sortLaunch (grid_val 256 size) 256 size] } with
      | none =>
        rw [hml] at hres
        exact absurd hres (by simp)
      | some est =>
        rw [hml] at hres
        rcases est with ⟨e, st⟩
        have hst : ∀ x ∈ st.trace, x.grid = grid_val 256 size := by
          intro x hx
          rcases merge_loop_trace_grid size 256 _ e st hml x hx with hmem | hgrid
          · rw [List.mem_singleton.mp hmem]
            rfl
          · exact hgrid
        cases e with
        | hipFailure c =>
          have hr : (
              { status := hipError.hipFailure c, storage_size := none,
                keys_output := st.keys_output, keys_buffer := st.keys_buffer,
                trace := st.trace } : SortResult K V) = res := Option.some.inj hres
          subst hr
          exact hst
        | hipSuccess =>
          dsimp only at hres
          by_cases htss : st.temporary_store
          · rw [if_pos htss] at hres
            cases hc2 : checkLaunch rt debug st.launches with
            | hipFailure c =>
              rw [hc2] at hres
              have hr : (
                  { status := hipError.hipFailure c, storage_size := none,
                    keys_output := block_copy_kernel st.keys_buffer,
                    keys_buffer := st.keys_buffer,
                    trace := st.trace ++
                      [KernelLaunch.copyLaunch (grid_val 256 size) 256 size] } :
                  SortResult K V) = res := Option.some.inj hres
              subst hr
              intro x hx
              rcases List.mem_append.mp hx with hx | hx
              · exact hst x hx
              · rw [List.mem_singleton.mp hx]
                rfl
            | hipSuccess =>
              rw [hc2] at hres
              have hr : (
                  { status := hipError.hipSuccess, storage_size := none,
                    keys_output := block_copy_kernel st.keys_buffer,
                    keys_buffer := st.keys_buffer,
                    trace := st.trace ++
                      [KernelLaunch.copyLaunch (grid_val 256 size) 256 size] } :
                  SortResult K V) = res := Option.some.inj hres
              subst hr
              intro x hx
              rcases List.mem_append.mp hx with hx | hx
              · exact hst x hx
              · rw [List.mem_singleton.mp hx]
                rfl
          · rw [if_neg htss] at hres
            have hr : (
                { status := hipError.hipSuccess, storage_size := none,
                  keys_output := st.keys_output, keys_buffer := st.keys_buffer,
                  trace := st.trace } : SortResult K V) = res := Option.some.inj hres
            subst hr
            exact hst

/-- C10: every kernel launch of a sort call — the group sort, every
merge pass, and the copy-back — is issued with the same grid size,
`ceil(size / 256)` narrowed to a 32-bit unsigned integer, i.e.
`((size + 255) / 256) mod 2 ^ 32` (for `size_t`-representable sizes the
source's `size_t` wraparound in `size + 255` coincides with this value). -/
theorem grid_size_uniform {K V : Type} (keySize valueSize : Nat)
    (with_values temporary_storage : Bool) (input output₀ : List (K × V))
    (size : Nat) (cmp : K → K → Bool) (rt : HipRuntime) (debug : Bool)
    (hsize : size < 2 ^ 64) :
    (result_trace (sort_pairs keySize valueSize with_values temporary_storage
        input output₀ size cmp rt debug)).all
      (fun e => e.grid == ((size + 255) / 256) % 2 ^ 32) = true := by
  rw [List.all_eq_true]
  intro x hx
  cases hS : sort_pairs keySize valueSize with_values temporary_storage input
      output₀ size cmp rt debug with
  | none =>
    rw [hS] at hx
    simp [result_trace] at hx
  | some res =>
    rw [hS] at hx
    have := sort_impl_trace_grid res hS x hx
    rw [beq_iff_eq, this, grid_val_256 hsize]

/-- C10 witness: at `size = 5` every launch carries grid size 1. -/
theorem grid_size_uniform_witness :
    (5 : Nat) < 2 ^ 64 ∧
    (result_trace (sort_pairs 8 8 true true
        [((5:Nat),(0:Nat)), (3,1), (1,2), (4,3), (2,4)] [] 5 cmpNat rtAllOk
        false)).all (fun e => e.grid == ((5 + 255) / 256) % 2 ^ 32) = true :=
  ⟨by norm_num,
    grid_size_uniform 8 8 true true [((5:Nat),(0:Nat)), (3,1), (1,2), (4,3), (2,4)]
      [] 5 cmpNat rtAllOk false (by norm_num)⟩

/-- C6: for every runtime behavior, a sort call that returns reports
success exactly when every per-launch status check (the
`hipPeekAtLastError` peek, plus the `hipStreamSynchronize` wait in debug
mode) of the launches it performed succeeded; and when it reports a
failure, that status is exactly the untranslated status of the check of
the last launch in the trace — every earlier check succeeded and no
further stage was launched after the failing one. -/
theorem fail_fast_propagation {K V : Type} (keySize valueSize : Nat)
    (with_values : Bool) (input output₀ : List (K × V)) (size : Nat)
    (cmp : K → K → Bool) (rt : HipRuntime) (debug : Bool) (e : hipError)
    (he : result_status (sort_pairs keySize valueSize with_values true input
      output₀ size cmp rt debug) = some e) :
    (e = hipError.hipSuccess ↔
      checks_ok rt debug (result_trace (sort_pairs keySize valueSize with_values
        true input output₀ size cmp rt debug)).length = true) ∧
    (∀ c, e = hipError.hipFailure c →
      checkLaunch rt debug ((result_trace (sort_pairs keySize valueSize
        with_values true input output₀ size cmp rt debug)).length - 1) =
          hipError.hipFailure c ∧
      checks_ok rt debug ((result_trace (sort_pairs keySize valueSize with_values
        true input output₀ size cmp rt debug)).length - 1) = true) := by
  cases hS : sort_pairs keySize valueSize with_values true input output₀ size cmp
      rt debug with
  | none =>
    rw [hS] at he
    exact absurd he (by simp [result_status])
  | some res =>
    rw [hS] at he
    have hre : res.status = e := by
      simp only [result_status, Option.map] at he
      exact Option.some.inj he
    rcases sort_impl_fail_fast res hS with ⟨hlen, hsucc, hfail⟩
    simp only [result_trace]
    constructor
    · constructor
      · intro hes
        rw [checks_ok_iff]
        intro j hj
        exact hsucc (hre.trans hes) j hj
      · intro hok
        cases e with
        | hipSuccess => rfl
        | hipFailure c =>
          rcases hfail c hre with ⟨hchk, _⟩
          have := checks_ok_iff.mp hok (res.trace.length - 1) (by omega)
          rw [this] at hchk
          exact absurd hchk (by simp)
    · intro c hec
      rcases hfail c (hre.trans hec) with ⟨hchk, hearlier⟩
      refine ⟨hchk, ?_⟩
      rw [checks_ok_iff]
      exact hearlier

/-- C6 witness: against a runtime that fails the check of launch index 1,
a `size = 300` sort returns failure code 7 untranslated; its trace has
exactly 2 launches (the failing merge pass was the last), and the earlier
check succeeded. -/
theorem fail_fast_propagation_witness :
    (hipError.hipFailure 7 = hipError.hipSuccess ↔
      checks_ok rtFail7 false (result_trace (sort_pairs 8 8 true true
        (List.replicate 300 ((0:Nat),(0:Nat))) [] 300 cmpNat rtFail7
        false)).length = true) ∧
    (checkLaunch rtFail7 false ((result_trace (sort_pairs 8 8 true true
        (List.replicate 300 ((0:Nat),(0:Nat))) [] 300 cmpNat rtFail7
        false)).length - 1) = hipError.hipFailure 7 ∧
      checks_ok rtFail7 false ((result_trace (sort_pairs 8 8 true true
        (List.replicate 300 ((0:Nat),(0:Nat))) [] 300 cmpNat rtFail7
        false)).length - 1) = true) := by
  have h := fail_fast_propagation 8 8 true
    (List.replicate 300 ((0:Nat),(0:Nat))) [] 300 cmpNat rtFail7 false
    (hipError.hipFailure 7) (by decide)
  exact ⟨h.1, h.2 7 rfl⟩

/-- C8: against a failure-free runtime, running the sort with the
debug/diagnostics flag enabled and disabled yields literally the same
observable outcome: the same kernel-launch trace (same stages, same
scalar arguments, same order), the same output and scratch contents, the
same `storage_size`, and the same return status; the flag only adds
logging and blocking waits. -/
theorem debug_flag_transparent {K V : Type} (keySize valueSize : Nat)
    (with_values temporary_storage : Bool) (input output₀ : List (K × V))
    (size : Nat) (cmp : K → K → Bool) {rt : HipRuntime} (hrt : rtOk rt) :
    sort_pairs keySize valueSize with_values temporary_storage input output₀
        size cmp rt true =
      sort_pairs keySize valueSize with_values temporary_storage input output₀
        size cmp rt false := by
  simp only [sort_pairs, sort_impl, checkLaunch_ok hrt,
    merge_loop_debug_irrelevant hrt]

/-- C8 witness: the two runs coincide on a concrete input. -/
theorem debug_flag_transparent_witness :
    sort_pairs 8 8 true true [((5:Nat),(0:Nat)), (3,1), (1,2), (4,3), (2,4)] []
        5 cmpNat rtAllOk true =
      sort_pairs 8 8 true true [((5:Nat),(0:Nat)), (3,1), (1,2), (4,3), (2,4)] []
        5 cmpNat rtAllOk false :=
  debug_flag_transparent 8 8 true true
    [((5:Nat),(0:Nat)), (3,1), (1,2), (4,3), (2,4)] [] 5 cmpNat rtAllOk_ok

end RocprimSort
